import Mathlib

/-!
Verification of core algorithms of the image-service repository.

The development shallowly embeds:
- the overlay engine `Tree::apply` / `Tree::remove`
  (src/bin/nydus-image/core/tree.rs),
- the aligned-writer check `RafsIoWrite::validate_alignment` (rafs/src/lib.rs),
- the builder argument processing `Command::get_chunk_size`,
  `Command::get_fs_version`, the `aligned_chunk` selection and the
  stargz-index parameter forcing (src/bin/nydus-image/main.rs),
- the daemon helper `get_default_rlimit_nofile` (src/bin/nydusd/main.rs).

The `Node` type and its whiteout classification live in
src/bin/nydus-image/core/node.rs, which is not part of the sources at hand;
those definitions are modelled from the specification's whiteout conventions
and are marked as such.
-/

namespace ImageService

/-- Overlay status of a node (core/node.rs `Overlay`). -/
inductive Overlay where
  | lower
  | upperAddition
  | upperOpaque
  | upperRemoval
  | upperModification
deriving DecidableEq, Repr

/-- Whiteout convention selected on the command line (core/node.rs `WhiteoutSpec`). -/
inductive WhiteoutSpec where
  | oci
  | overlayfs
deriving DecidableEq, Repr

/-- Classification of a whiteout node (core/node.rs `WhiteoutType`). -/
inductive WhiteoutType where
  | ociRemoval
  | ociOpaque
  | overlayFsRemoval
  | overlayFsOpaque
deriving DecidableEq, Repr

/-- A whiteout type is a removal (as opposed to an opaque marker). -/
def WhiteoutType.isRemoval : WhiteoutType → Bool
  | .ociRemoval => true
  | .overlayFsRemoval => true
  | _ => false

/-- File type of a node, as far as the overlay engine consults it. -/
inductive FType where
  | dir
  | reg
  | charDev
  | other
deriving DecidableEq, Repr

/-- Modelled from the spec: the filesystem node of core/node.rs (not in src/),
restricted to the fields the overlay engine reads.  `target_vec` holds the
absolute path components of the node, with "/" as the first component, as the
spec describes for `target_vec`; `opaqueXattr` records the presence of the
`trusted.overlay.opaque=y` extended attribute. -/
structure Node where
  ino : Nat
  ftype : FType
  rdev : Nat
  opaqueXattr : Bool
  overlay : Overlay
  target_vec : List String
deriving DecidableEq, Repr

/-- Modelled from the spec: `Node::name`, the file name of the node — the last
component of its absolute path ("/" for the root). -/
def Node.name (n : Node) : String :=
  n.target_vec.getLastD ""

/-- Modelled from the spec: `Node::is_dir`. -/
def Node.isDir (n : Node) : Bool :=
  n.ftype = FType.dir

/-- Modelled from the spec: whether `Node::path` is the root path "/"
(the comparison `target.path() == &PathBuf::from("/")` of tree.rs line 113). -/
def Node.pathIsRoot (n : Node) : Bool :=
  n.target_vec = ["/"]

/-- Modelled from the spec: the file name of the parent directory of the node
(`target.path().parent()` followed by `file_name()` in tree.rs lines 93-97).
The parent of "/" does not exist and the file name of "/" itself is empty, so
both give `none`. -/
def Node.parentName (n : Node) : Option String :=
  match n.target_vec.dropLast with
  | [] => none
  | l => if l = ["/"] then none else some (l.getLastD "")

/-- The OCI whiteout file name `.wh..wh..opq` marking an opaque directory. -/
def ociOpaqueName : String := ".wh..wh..opq"

/-- Prefix test on character lists (`List.isPrefixOf` with the pattern rows
ordered so that the empty-pattern case reduces without inspecting the other
list). -/
def charsIsPre : List Char → List Char → Bool
  | [], _ => true
  | _ :: _, [] => false
  | a :: as, b :: bs => a == b && charsIsPre as bs

/-- Whether the string `s` starts with the string `p`, computed on the
character lists of the two strings. -/
def strStartsWith (s p : String) : Bool :=
  charsIsPre p.data s.data

/-- Modelled from the spec: `Node::whiteout_type` of core/node.rs.  Under the
OCI spec a regular file named `.wh..wh..opq` is an opaque marker and any other
regular file whose name starts with `.wh.` is a removal; under the OverlayFS
spec a character device with device number 0 is a removal and a directory with
the `trusted.overlay.opaque=y` xattr is an opaque marker. -/
def Node.whiteoutType (n : Node) (ws : WhiteoutSpec) : Option WhiteoutType :=
  match ws with
  | .oci =>
    if n.ftype = FType.reg then
      if n.name = ociOpaqueName then some .ociOpaque
      else if strStartsWith n.name ".wh." then some .ociRemoval
      else none
    else none
  | .overlayfs =>
    if n.ftype = FType.charDev ∧ n.rdev = 0 then some .overlayFsRemoval
    else if n.ftype = FType.dir ∧ n.opaqueXattr then some .overlayFsOpaque
    else none

/-- Modelled from the spec: `Node::origin_name` — the name a whiteout deletes.
A `.wh.<name>` file deletes `<name>` (the name without the 4-character `.wh.`
marker), an OverlayFS character-device whiteout deletes its own name, opaque
markers delete no single name. -/
def Node.originName (n : Node) (wt : WhiteoutType) : Option String :=
  match wt with
  | .ociRemoval => some (String.mk (n.name.data.drop 4))
  | .overlayFsRemoval => some n.name
  | _ => none

/-- The in-memory tree of filesystem nodes (tree.rs `Tree`). -/
inductive Tree where
  | mk (node : Node) (children : List Tree)
deriving Repr

/-- The filesystem node of a tree root. -/
def Tree.node : Tree → Node
  | .mk n _ => n

/-- The children of a tree root. -/
def Tree.children : Tree → List Tree
  | .mk _ c => c

mutual

/-- Translation of `Tree::remove` (tree.rs lines 163-238).  The node tree is
returned alongside the boolean because the Rust function mutates `self`. -/
def Tree.remove (t : Tree) (target : Node) (wt : WhiteoutType)
    (originName parentName : Option String) : Except String (Tree × Bool) :=
  match t with
  | .mk nd cs =>
    let tps := target.target_vec
    let tplen := tps.length
    let nps := nd.target_vec
    let depth := nps.length
    -- Don't continue to search if current path not matched with target path
    -- or recursive depth out of target path
    if tplen ≤ depth ∨ nps.getD (depth - 1) "" ≠ tps.getD (depth - 1) "" then
      .ok (.mk nd cs, false)
    -- Handle Opaques for root path (/)
    else if depth = 1 ∧ (wt = .ociOpaque ∧ tplen = 2 ∨ wt = .overlayFsOpaque ∧ tplen = 1) then
      .ok (.mk { nd with overlay := .upperOpaque } [], true)
    else do
      let (cs1, found) ← Tree.removeChildren target wt originName parentName depth tplen cs
      .ok (.mk nd cs1, found)

/-- The child loop of `Tree::remove` (tree.rs lines 192-235), with the
possibly-updated children threaded explicitly.  The two opaque branches are
an exclusive `if`/`else if` on the whiteout type in the source; they are
written as one flat chain here, which agrees with the source because a
whiteout type cannot be OCI-opaque and OverlayFS-opaque at once. -/
def Tree.removeChildren (target : Node) (wt : WhiteoutType)
    (originName parentName : Option String) (depth tplen : Nat) :
    List Tree → Except String (List Tree × Bool)
  | [] => .ok ([], false)
  | c :: rest =>
    -- Handle Removals
    if depth = tplen - 1 ∧ wt.isRemoval = true ∧ originName = some c.node.name then
      .ok (rest, true)
    -- Handle Opaques
    else if wt = .ociOpaque ∧ 2 ≤ tplen ∧ depth = tplen - 2
        ∧ parentName = some c.node.name then
      .ok (.mk { c.node with overlay := .upperOpaque } [] :: rest, true)
    else if wt = .overlayFsOpaque ∧ depth = tplen - 1 ∧ target.name = c.node.name then
      -- Remove all children under the opaque directory
      .ok (.mk { c.node with overlay := .upperOpaque } [] :: rest, true)
    else if c.node.isDir = true then do
      -- Search the node recursively
      let (c1, found) ← Tree.remove c target wt originName parentName
      if found then .ok (c1 :: rest, true)
      else do
        let (rest1, f) ← Tree.removeChildren target wt originName parentName depth tplen rest
        .ok (c1 :: rest1, f)
    else do
      let (rest1, f) ← Tree.removeChildren target wt originName parentName depth tplen rest
      .ok (c :: rest1, f)

end

mutual

/-- Translation of the non-whiteout part of `Tree::apply` (tree.rs lines
108-159): root modification, the child search loop, and the addition branch. -/
def Tree.applyBody (t : Tree) (target : Node) (handleWhiteout : Bool)
    (ws : WhiteoutSpec) : Except String (Tree × Bool) :=
  match t with
  | .mk nd cs =>
    let tps := target.target_vec
    let tplen := tps.length
    let depth := nd.target_vec.length
    -- Handle root node modification
    if target.pathIsRoot = true then
      .ok (.mk { target with overlay := .upperModification } cs, true)
    else do
      -- Don't search if path recursive depth out of target path
      let (cs1, found) ←
        if depth < tplen then Tree.applyChildren target handleWhiteout ws depth cs
        else .ok (cs, false)
      if found then .ok (.mk nd cs1, true)
      -- Additions: Add new node to children
      else if depth = tplen - 1 ∧ tps.getD (depth - 1) "" = nd.name then
        .ok (.mk nd (cs1 ++ [.mk { target with overlay := .upperAddition } []]), true)
      else .ok (.mk nd cs1, false)

/-- The child loop of `Tree::apply` (tree.rs lines 123-145).  The recursive
call `child.apply(target, handle_whiteout, whiteout_spec)` of line 140 is
represented by `Tree.applyBody` directly: the loop only runs when whiteout
handling is off or the target is not a whiteout, and in either case
`Tree.apply` and `Tree.applyBody` coincide (lemma `apply_eq_applyBody`). -/
def Tree.applyChildren (target : Node) (handleWhiteout : Bool) (ws : WhiteoutSpec)
    (depth : Nat) : List Tree → Except String (List Tree × Bool)
  | [] => .ok ([], false)
  | c :: rest =>
    let tps := target.target_vec
    -- Skip if path component name not match
    if tps.getD depth "" ≠ c.node.name then do
      let (rest1, f) ← Tree.applyChildren target handleWhiteout ws depth rest
      .ok (c :: rest1, f)
    -- Modifications: Replace the node
    else if depth = tps.length - 1 then
      .ok (.mk { target with overlay := .upperModification } c.children :: rest, true)
    else if c.node.isDir = true then do
      -- Search the node recursively
      let (c1, found) ← Tree.applyBody c target handleWhiteout ws
      if found then .ok (c1 :: rest, true)
      else do
        let (rest1, f) ← Tree.applyChildren target handleWhiteout ws depth rest
        .ok (c1 :: rest1, f)
    else do
      let (rest1, f) ← Tree.applyChildren target handleWhiteout ws depth rest
      .ok (c :: rest1, f)

end

/-- Translation of `Tree::apply` (tree.rs lines 83-160).  The whiteout
dispatch of lines 89-106 wraps `Tree.applyBody`.  The self call
`self.apply(target, false, whiteout_spec)` of line 102 is represented by
`Tree.applyBody t1 target false ws`, which is the same function because a
call with `handle_whiteout = false` skips the whiteout branch (lemma
`apply_eq_applyBody`). -/
def Tree.apply (t : Tree) (target : Node) (handleWhiteout : Bool)
    (ws : WhiteoutSpec) : Except String (Tree × Bool) :=
  if handleWhiteout then
    match target.whiteoutType ws with
    | some wt =>
      let originName := target.originName wt
      let parentName := target.parentName
      if wt = .overlayFsOpaque then do
        let (t1, _) ← t.remove target wt originName parentName
        Tree.applyBody t1 target false ws
      else
        t.remove target wt originName parentName
    | none => t.applyBody target handleWhiteout ws
  else t.applyBody target handleWhiteout ws

/-- `Tree.apply` and `Tree.applyBody` agree whenever whiteout handling is off
or the target is not a whiteout — exactly the situations in which the source
reaches the body of `Tree::apply` or re-invokes it on a child. -/
theorem apply_eq_applyBody (t : Tree) (target : Node) (hw : Bool) (ws : WhiteoutSpec)
    (h : hw = false ∨ target.whiteoutType ws = none) :
    t.apply target hw ws = t.applyBody target hw ws := by
  rcases h with h | h
  · simp [Tree.apply, h]
  · rcases hw with _ | _ <;> simp [Tree.apply, h]

/-! Specification-side helpers about trees, used to state the properties of
`Tree.apply` and `Tree.remove`.  They navigate a tree by child names relative
to its root. -/

/-- Whether no two children share a name. -/
def namesNodup : List Tree → Bool
  | [] => true
  | c :: rest => !(rest.any fun d => d.node.name = c.node.name) && namesNodup rest

mutual

/-- A tree is well formed at absolute path `p` when its root records `p` as
its `target_vec`, no two children share a name, and every child is well
formed at `p` extended with the child's name.  This is the path bookkeeping
the builder maintains for every tree it constructs. -/
def Tree.wfAt : Tree → List String → Bool
  | .mk nd cs, p => nd.target_vec = p && !p.isEmpty && namesNodup cs && Tree.wfList cs p

/-- All trees in the list are well formed as children of a node at path `p`. -/
def Tree.wfList : List Tree → List String → Bool
  | [], _ => true
  | c :: rest, p => Tree.wfAt c (p ++ [c.node.name]) && Tree.wfList rest p

end

/-- A tree rooted at "/" is well formed. -/
def Tree.wf (t : Tree) : Bool :=
  t.wfAt ["/"]

/-- Whether following the child names `rel` from the root of `t` — every step
entering a directory — ends at a node having a child named `name`.  This is
how a whiteout `.wh.<name>` inside the directory at `rel` finds its victim. -/
def Tree.hasChildAt : Tree → List String → String → Bool
  | t, [], name => t.children.any fun c => c.node.name = name
  | t, n :: rest, name =>
    t.children.any fun c => c.node.name = n && c.node.isDir && c.hasChildAt rest name

/-- Replace the first child named `n` by `f` applied to it. -/
def modifyFirstNamed (n : String) (f : Tree → Tree) : List Tree → List Tree
  | [] => []
  | c :: rest => if c.node.name = n then f c :: rest else c :: modifyFirstNamed n f rest

/-- Drop the first child named `name`. -/
def eraseFirstNamed (name : String) : List Tree → List Tree
  | [] => []
  | c :: rest => if c.node.name = name then rest else c :: eraseFirstNamed name rest

/-- Remove, from the node reached by following `rel`, the first child named
`name`. -/
def Tree.eraseChildAt : Tree → List String → String → Tree
  | .mk nd cs, [], name => .mk nd (eraseFirstNamed name cs)
  | .mk nd cs, n :: rest, name =>
    .mk nd (modifyFirstNamed n (fun c => c.eraseChildAt rest name) cs)

/-- Mark the node reached by following `rel` as opaque: set its overlay
status to `UpperOpaque` and drop all of its children. -/
def Tree.opaqueAt : Tree → List String → Tree
  | .mk nd _, [] => .mk { nd with overlay := .upperOpaque } []
  | .mk nd cs, n :: rest =>
    .mk nd (modifyFirstNamed n (fun c => c.opaqueAt rest) cs)

/-! Embedding of `RafsIoWrite::validate_alignment` (rafs/src/lib.rs lines
85-96).  The writer state relevant to the function is its cursor position:
`self.seek(SeekFrom::Current(0))` reads the position without moving it, so
the function is a pure function of the cursor, and it hands the unchanged
cursor back next to the validated size. -/

/-- Translation of `RafsIoWrite::validate_alignment`: fail with the
invalid-input error "unaligned data" when a nonzero `alignment` does not
divide `size` or the cursor (checked with bit masks in the source), otherwise
return `size`; the cursor `cur` is returned unchanged. -/
def validate_alignment (cur size alignment : Nat) : Except String (Nat × Nat) :=
  if alignment ≠ 0 then
    if size &&& (alignment - 1) ≠ 0 ∨ cur &&& (alignment - 1) ≠ 0 then
      .error "unaligned data"
    else .ok (size, cur)
  else .ok (size, cur)

/-! Embedding of the builder command-line processing
(src/bin/nydus-image/main.rs). -/

/-- Modelled from the spec: `RAFS_DEFAULT_CHUNK_SIZE` (a rafs constant whose
definition is not among the sources at hand) — the spec fixes the chunk-size
range at [4 KiB, 1 MiB] with 1 MiB as the default. -/
def RAFS_DEFAULT_CHUNK_SIZE : Nat := 0x100000

/-- Repeatedly strip the two-character pattern `a`,`b` from the front of a
character list: `str::trim_start_matches` specialised to the two-character
patterns the source uses. -/
def stripAll2 (a b : Char) : List Char → List Char
  | x :: y :: rest => if x = a ∧ y = b then stripAll2 a b rest else x :: y :: rest
  | s => s

/-- `str::trim_end_matches("0X")`: repeatedly strip a trailing `0X`. -/
def trimEnd0X (s : List Char) : List Char :=
  (stripAll2 'X' '0' s.reverse).reverse

/-- The numeric value of a hexadecimal digit, upper or lower case. -/
def hexDigit? (c : Char) : Option Nat :=
  if '0' ≤ c ∧ c ≤ '9' then some (c.toNat - 48)
  else if 'a' ≤ c ∧ c ≤ 'f' then some (c.toNat - 87)
  else if 'A' ≤ c ∧ c ≤ 'F' then some (c.toNat - 55)
  else none

/-- Accumulate the value of a big-endian hexadecimal digit string, failing on
the first character that is not a hexadecimal digit. -/
def hexVal? : List Char → Nat → Option Nat
  | [], acc => some acc
  | c :: rest, acc =>
    match hexDigit? c with
    | some d => hexVal? rest (acc * 16 + d)
    | none => none

/-- `u32::from_str_radix(s, 16)`: an optional leading `+`, then at least one
hexadecimal digit, every character a digit, and the value within `u32`
(the source checks overflow while accumulating; accumulating exactly and
comparing against `2^32` at the end yields the same outcome). -/
def fromStrRadix16 (s : List Char) : Except String Nat :=
  let ds := match s with
    | '+' :: rest => rest
    | _ => s
  if ds.isEmpty then .error "cannot parse integer from empty string"
  else
    match hexVal? ds 0 with
    | none => .error "invalid digit found in string"
    | some v => if v < 2 ^ 32 then .ok v else .error "number too large to fit in target type"

/-- `u32::is_power_of_two`. -/
def isPowerOfTwoB (n : Nat) : Bool :=
  n ≠ 0 && n &&& (n - 1) = 0

/-- Translation of `Command::get_chunk_size` (main.rs lines 765-781): absent
argument means the default chunk size; otherwise strip leading `0x` and
trailing `0X` occurrences, parse the rest as hexadecimal `u32`, and reject a
value above the default, below 0x1000, or not a power of two. -/
def get_chunk_size (arg : Option String) : Except String Nat :=
  match arg with
  | none => .ok RAFS_DEFAULT_CHUNK_SIZE
  | some v => do
    let param := trimEnd0X (stripAll2 '0' 'x' v.data)
    let chunk_size ← fromStrRadix16 param
    if RAFS_DEFAULT_CHUNK_SIZE < chunk_size ∨ chunk_size < 0x1000
        ∨ isPowerOfTwoB chunk_size = false then
      .error "invalid chunk size"
    else .ok chunk_size

/-- The two on-disk format versions the builder emits. -/
inductive RafsVersion where
  | v5
  | v6
deriving DecidableEq, Repr

/-- `RafsVersion::is_v6`. -/
def RafsVersion.is_v6 : RafsVersion → Bool
  | .v6 => true
  | .v5 => false

/-- The numeric value of a decimal digit. -/
def decDigit? (c : Char) : Option Nat :=
  if '0' ≤ c ∧ c ≤ '9' then some (c.toNat - 48) else none

/-- Accumulate the value of a decimal digit string. -/
def decVal? : List Char → Nat → Option Nat
  | [], acc => some acc
  | c :: rest, acc =>
    match decDigit? c with
    | some d => decVal? rest (acc * 10 + d)
    | none => none

/-- `str::parse::<u32>()`: an optional leading `+`, at least one decimal
digit, and a value within `u32`. -/
def parseU32 (s : List Char) : Except String Nat :=
  let ds := match s with
    | '+' :: rest => rest
    | _ => s
  if ds.isEmpty then .error "cannot parse integer from empty string"
  else
    match decVal? ds 0 with
    | none => .error "invalid digit found in string"
    | some v => if v < 2 ^ 32 then .ok v else .error "number too large to fit in target type"

/-- Translation of `Command::get_fs_version` (main.rs lines 783-797): absent
means V6, "5" means V5, "6" means V6, anything else fails. -/
def get_fs_version (arg : Option String) : Except String RafsVersion :=
  match arg with
  | none => .ok .v6
  | some v => do
    let version ← parseU32 v.data
    if version = 5 then .ok .v5
    else if version = 6 then .ok .v6
    else .error "invalid fs-version"

/-- Translation of the `aligned_chunk` selection in `Command::create`
(main.rs lines 463-469): v6 enforces aligned chunks, v5 follows the
`--aligned-chunk` flag. -/
def aligned_chunk_choice (version : RafsVersion) (alignedChunkFlag : Bool) : Bool :=
  if version.is_v6 then true else alignedChunkFlag

/-- The compression algorithms of the builder (`compress::Algorithm`). -/
inductive Compressor where
  | none
  | lz4Block
  | gzip
deriving DecidableEq, Repr

/-- The digest algorithms of the builder (`digest::Algorithm`). -/
inductive Digester where
  | blake3
  | sha256
deriving DecidableEq, Repr

/-- `str::trim`: drop leading and trailing whitespace characters. -/
def trimChars (s : List Char) : List Char :=
  ((s.dropWhile Char.isWhitespace).reverse.dropWhile Char.isWhitespace).reverse

/-- Translation of the `SourceType::StargzIndex` arm of `Command::create`
(main.rs lines 481-494), restricted to its effect on the build parameters:
fail when the blob id trims to the empty string, otherwise force the
compressor to gzip and the digester to sha256, whatever was requested. -/
def stargz_params (blob_id : String) (_compressor : Compressor)
    (_digester : Digester) : Except String (Compressor × Digester) :=
  if String.mk (trimChars blob_id.data) = "" then .error "blob-id can't be empty"
  else .ok (Compressor.gzip, Digester.sha256)

/-! Embedding of `get_default_rlimit_nofile` (src/bin/nydusd/main.rs lines
63-91).  The two environment reads are passed as arguments: `file_max` is the
parsed value of the fs.file-max sysctl and `curr` the current soft
RLIMIT_NOFILE returned by `Resource::NOFILE.get()`. -/

/-- Translation of `get_default_rlimit_nofile`: fail when fs.file-max is
below twice the 16384 reserved descriptors; otherwise the target is
fs.file-max minus the reservation, capped at 1,000,000, and 0 is returned
instead when the current limit already reaches the target. -/
def get_default_rlimit_nofile (file_max curr : Nat) : Except String Nat :=
  let max_fds : Nat := 1000000
  let reserved_fds : Nat := 16384
  if file_max < 2 * reserved_fds then
    .error "The fs.file-max sysctl is too low to allow a reasonable number of open files."
  else
    let max_fds := min (file_max - reserved_fds) max_fds
    .ok (if max_fds ≤ curr then 0 else max_fds)

/-! Helper lemmas about paths and well-formed trees. -/

/-- `getD` at the last position of a nonempty list is `getLastD`. -/
theorem getD_length_sub_one {l : List String} (d : String) (h : l ≠ []) :
    l.getD (l.length - 1) d = l.getLastD d := by
  induction l using List.reverseRecOn with
  | nil => exact absurd rfl h
  | append_singleton l' x _ =>
    rw [List.getD_append_right _ _ _ _ (by simp)]
    simp

/-- `getD` just past a prefix reads the appended element. -/
theorem getD_append_length (l : List String) (x d : String) :
    (l ++ [x]).getD l.length d = x := by
  rw [List.getD_append_right _ _ _ _ (le_refl _)]
  simp

/-- The name of a node whose `target_vec` is `p ++ [x]` is `x`. -/
theorem Node.name_of_tv {n : Node} {p : List String} {x : String}
    (h : n.target_vec = p ++ [x]) : n.name = x := by
  rw [Node.name, h]
  simp

/-- A well-formed tree records its path in its root node. -/
theorem Tree.wfAt_tv {t : Tree} {p : List String} (h : t.wfAt p = true) :
    t.node.target_vec = p := by
  cases t with
  | mk nd cs =>
    rw [Tree.wfAt] at h
    simp only [Bool.and_eq_true, decide_eq_true_eq] at h
    exact h.1.1.1

/-- A well-formed tree sits at a nonempty path. -/
theorem Tree.wfAt_ne_nil {t : Tree} {p : List String} (h : t.wfAt p = true) :
    p ≠ [] := by
  cases t with
  | mk nd cs =>
    rw [Tree.wfAt] at h
    simp only [Bool.and_eq_true, decide_eq_true_eq] at h
    simpa using h.1.1.2

/-- The children of a well-formed tree have pairwise distinct names. -/
theorem Tree.wfAt_nodup {nd : Node} {cs : List Tree} {p : List String}
    (h : (Tree.mk nd cs).wfAt p = true) : namesNodup cs = true := by
  rw [Tree.wfAt] at h
  simp only [Bool.and_eq_true, decide_eq_true_eq] at h
  exact h.1.2

/-- The children of a well-formed tree are well formed. -/
theorem Tree.wfAt_children {nd : Node} {cs : List Tree} {p : List String}
    (h : (Tree.mk nd cs).wfAt p = true) : Tree.wfList cs p = true := by
  rw [Tree.wfAt] at h
  simp only [Bool.and_eq_true, decide_eq_true_eq] at h
  exact h.2

/-- Each member of a well-formed child list is well formed one level down. -/
theorem Tree.wfList_mem {cs : List Tree} {p : List String}
    (h : Tree.wfList cs p = true) {c : Tree} (hm : c ∈ cs) :
    c.wfAt (p ++ [c.node.name]) = true := by
  revert hm h
  induction cs with
  | nil => intro h hm; cases hm
  | cons hd tl ih =>
    intro h hm
    rw [Tree.wfList] at h
    simp only [Bool.and_eq_true] at h
    rcases List.mem_cons.mp hm with hm | hm
    · subst hm; exact h.1
    · exact ih h.2 hm

/-- The `target_vec` of a well-formed child extends the parent path with the
child's own name. -/
theorem Tree.wfList_mem_tv {cs : List Tree} {p : List String}
    (h : Tree.wfList cs p = true) {c : Tree} (hm : c ∈ cs) :
    c.node.target_vec = p ++ [c.node.name] :=
  Tree.wfAt_tv (Tree.wfList_mem h hm)

/-! Step lemmas describing single steps of `Tree.remove` and
`Tree.removeChildren`. -/

/-- `Tree::remove` stops with `false` when the current node's path does not
match the target path or the depth is exhausted (tree.rs line 177). -/
theorem Tree.remove_guard {t : Tree} {target : Node} (wt : WhiteoutType)
    (o pn : Option String)
    (h : target.target_vec.length ≤ t.node.target_vec.length ∨
         t.node.target_vec.getD (t.node.target_vec.length - 1) "" ≠
           target.target_vec.getD (t.node.target_vec.length - 1) "") :
    t.remove target wt o pn = .ok (t, false) := by
  cases t with
  | mk nd cs =>
    simp only [Tree.remove]
    rw [if_pos]
    exact h

/-- The root-opaque branch of `Tree::remove` (tree.rs lines 182-189). -/
theorem Tree.remove_rootOpaque {nd : Node} {cs : List Tree} {target : Node}
    {wt : WhiteoutType} (o pn : Option String)
    (hg : ¬ (target.target_vec.length ≤ nd.target_vec.length ∨
         nd.target_vec.getD (nd.target_vec.length - 1) "" ≠
           target.target_vec.getD (nd.target_vec.length - 1) ""))
    (hr : nd.target_vec.length = 1 ∧
          (wt = .ociOpaque ∧ target.target_vec.length = 2 ∨
           wt = .overlayFsOpaque ∧ target.target_vec.length = 1)) :
    (Tree.mk nd cs).remove target wt o pn =
      .ok (.mk { nd with overlay := .upperOpaque } [], true) := by
  simp only [Tree.remove]
  rw [if_neg hg, if_pos hr]

/-- When neither guard fires, `Tree::remove` descends into the child loop and
reassembles the node around its result. -/
theorem Tree.remove_descend {nd : Node} {cs cs1 : List Tree} {target : Node}
    {wt : WhiteoutType} {o pn : Option String} {f : Bool}
    (hg : ¬ (target.target_vec.length ≤ nd.target_vec.length ∨
         nd.target_vec.getD (nd.target_vec.length - 1) "" ≠
           target.target_vec.getD (nd.target_vec.length - 1) ""))
    (hr : ¬ (nd.target_vec.length = 1 ∧
          (wt = .ociOpaque ∧ target.target_vec.length = 2 ∨
           wt = .overlayFsOpaque ∧ target.target_vec.length = 1)))
    (hc : Tree.removeChildren target wt o pn nd.target_vec.length
            target.target_vec.length cs = .ok (cs1, f)) :
    (Tree.mk nd cs).remove target wt o pn = .ok (.mk nd cs1, f) := by
  simp only [Tree.remove]
  rw [if_neg hg, if_neg hr, hc]
  rfl

/-- The removal branch of the child loop (tree.rs lines 196-203). -/
theorem Tree.removeChildren_removal {target : Node} {wt : WhiteoutType}
    {o pn : Option String} {depth tplen : Nat} {c : Tree} {rest : List Tree}
    (h : depth = tplen - 1 ∧ wt.isRemoval = true ∧ o = some c.node.name) :
    Tree.removeChildren target wt o pn depth tplen (c :: rest) =
      .ok (rest, true) := by
  simp only [Tree.removeChildren]
  rw [if_pos h]

/-- The OCI-opaque branch of the child loop (tree.rs lines 206-217). -/
theorem Tree.removeChildren_ociOpaque {target : Node} {wt : WhiteoutType}
    {o pn : Option String} {depth tplen : Nat} {c : Tree} {rest : List Tree}
    (h1 : ¬ (depth = tplen - 1 ∧ wt.isRemoval = true ∧ o = some c.node.name))
    (h2 : wt = .ociOpaque ∧ 2 ≤ tplen ∧ depth = tplen - 2 ∧ pn = some c.node.name) :
    Tree.removeChildren target wt o pn depth tplen (c :: rest) =
      .ok (.mk { c.node with overlay := .upperOpaque } [] :: rest, true) := by
  simp only [Tree.removeChildren]
  rw [if_neg h1, if_pos h2]

/-- The OverlayFS-opaque branch of the child loop (tree.rs lines 218-226). -/
theorem Tree.removeChildren_ovlOpaque {target : Node} {wt : WhiteoutType}
    {o pn : Option String} {depth tplen : Nat} {c : Tree} {rest : List Tree}
    (h1 : ¬ (depth = tplen - 1 ∧ wt.isRemoval = true ∧ o = some c.node.name))
    (h2 : ¬ (wt = .ociOpaque ∧ 2 ≤ tplen ∧ depth = tplen - 2 ∧ pn = some c.node.name))
    (h3 : wt = .overlayFsOpaque ∧ depth = tplen - 1 ∧ target.name = c.node.name) :
    Tree.removeChildren target wt o pn depth tplen (c :: rest) =
      .ok (.mk { c.node with overlay := .upperOpaque } [] :: rest, true) := by
  simp only [Tree.removeChildren]
  rw [if_neg h1, if_neg h2, if_pos h3]

/-- A child on which no branch fires and whose recursive removal finds
nothing is kept unchanged and the loop moves on. -/
theorem Tree.removeChildren_skip {target : Node} {wt : WhiteoutType}
    {o pn : Option String} {depth tplen : Nat} {c : Tree} {rest rest1 : List Tree}
    {f : Bool}
    (h1 : ¬ (depth = tplen - 1 ∧ wt.isRemoval = true ∧ o = some c.node.name))
    (h2 : ¬ (wt = .ociOpaque ∧ 2 ≤ tplen ∧ depth = tplen - 2 ∧ pn = some c.node.name))
    (h3 : ¬ (wt = .overlayFsOpaque ∧ depth = tplen - 1 ∧ target.name = c.node.name))
    (h4 : c.node.isDir = true → c.remove target wt o pn = .ok (c, false))
    (h5 : Tree.removeChildren target wt o pn depth tplen rest = .ok (rest1, f)) :
    Tree.removeChildren target wt o pn depth tplen (c :: rest) =
      .ok (c :: rest1, f) := by
  simp only [Tree.removeChildren]
  rw [if_neg h1, if_neg h2, if_neg h3]
  by_cases hd : c.node.isDir = true
  · rw [if_pos hd, h4 hd]
    show (Tree.removeChildren target wt o pn depth tplen rest).bind _ = _
    rw [h5]
    rfl
  · rw [if_neg hd, h5]
    rfl

/-- A directory child whose recursive removal succeeds ends the loop. -/
theorem Tree.removeChildren_hit {target : Node} {wt : WhiteoutType}
    {o pn : Option String} {depth tplen : Nat} {c c1 : Tree} {rest : List Tree}
    (h1 : ¬ (depth = tplen - 1 ∧ wt.isRemoval = true ∧ o = some c.node.name))
    (h2 : ¬ (wt = .ociOpaque ∧ 2 ≤ tplen ∧ depth = tplen - 2 ∧ pn = some c.node.name))
    (h3 : ¬ (wt = .overlayFsOpaque ∧ depth = tplen - 1 ∧ target.name = c.node.name))
    (h4 : c.node.isDir = true)
    (h5 : c.remove target wt o pn = .ok (c1, true)) :
    Tree.removeChildren target wt o pn depth tplen (c :: rest) =
      .ok (c1 :: rest, true) := by
  simp only [Tree.removeChildren]
  rw [if_neg h1, if_neg h2, if_neg h3, if_pos h4, h5]
  rfl

/-! Step lemmas for `Tree.applyBody` and `Tree.applyChildren`. -/

/-- The root-modification branch of `Tree::apply` (tree.rs lines 113-118). -/
theorem Tree.applyBody_root {nd : Node} {cs : List Tree} {target : Node}
    (hw : Bool) (ws : WhiteoutSpec) (h : target.pathIsRoot = true) :
    (Tree.mk nd cs).applyBody target hw ws =
      .ok (.mk { target with overlay := .upperModification } cs, true) := by
  simp only [Tree.applyBody]
  rw [if_pos h]

/-- When the search loop finds a position, `Tree::apply` stops with `true`
(tree.rs lines 121-146). -/
theorem Tree.applyBody_found {nd : Node} {cs cs1 : List Tree} {target : Node}
    {hw : Bool} {ws : WhiteoutSpec}
    (h : target.pathIsRoot = false)
    (hlt : nd.target_vec.length < target.target_vec.length)
    (hc : Tree.applyChildren target hw ws nd.target_vec.length cs = .ok (cs1, true)) :
    (Tree.mk nd cs).applyBody target hw ws = .ok (.mk nd cs1, true) := by
  simp only [Tree.applyBody]
  rw [if_neg (by simp [h]), if_pos hlt, hc]
  rfl

/-- When the search loop finds nothing, `Tree::apply` falls through to the
addition branch (tree.rs lines 148-159). -/
theorem Tree.applyBody_notFound {nd : Node} {cs cs1 : List Tree} {target : Node}
    {hw : Bool} {ws : WhiteoutSpec}
    (h : target.pathIsRoot = false)
    (hlt : nd.target_vec.length < target.target_vec.length)
    (hc : Tree.applyChildren target hw ws nd.target_vec.length cs = .ok (cs1, false)) :
    (Tree.mk nd cs).applyBody target hw ws =
      (if nd.target_vec.length = target.target_vec.length - 1
          ∧ target.target_vec.getD (nd.target_vec.length - 1) "" = nd.name then
        .ok (.mk nd (cs1 ++ [.mk { target with overlay := .upperAddition } []]), true)
      else .ok (.mk nd cs1, false)) := by
  simp only [Tree.applyBody]
  rw [if_neg (by simp [h]), if_pos hlt, hc]
  rfl

/-- When the depth is out of the target path, the loop is skipped entirely
(tree.rs line 121). -/
theorem Tree.applyBody_deep {nd : Node} (cs : List Tree) {target : Node}
    (hw : Bool) (ws : WhiteoutSpec)
    (h : target.pathIsRoot = false)
    (hlt : ¬ nd.target_vec.length < target.target_vec.length) :
    (Tree.mk nd cs).applyBody target hw ws =
      (if nd.target_vec.length = target.target_vec.length - 1
          ∧ target.target_vec.getD (nd.target_vec.length - 1) "" = nd.name then
        .ok (.mk nd (cs ++ [.mk { target with overlay := .upperAddition } []]), true)
      else .ok (.mk nd cs, false)) := by
  simp only [Tree.applyBody]
  rw [if_neg (by simp [h]), if_neg hlt]
  rfl

/-- A child whose name does not match the wanted path component is skipped
(tree.rs lines 124-127). -/
theorem Tree.applyChildren_skip {target : Node} {hw : Bool} {ws : WhiteoutSpec}
    {depth : Nat} {c : Tree} {rest rest1 : List Tree} {f : Bool}
    (h : target.target_vec.getD depth "" ≠ c.node.name)
    (hr : Tree.applyChildren target hw ws depth rest = .ok (rest1, f)) :
    Tree.applyChildren target hw ws depth (c :: rest) = .ok (c :: rest1, f) := by
  simp only [Tree.applyChildren]
  rw [if_pos h, hr]
  rfl

/-- The modification branch of the loop (tree.rs lines 129-137). -/
theorem Tree.applyChildren_modify {target : Node} {hw : Bool} {ws : WhiteoutSpec}
    {depth : Nat} {c : Tree} {rest : List Tree}
    (h : target.target_vec.getD depth "" = c.node.name)
    (hd : depth = target.target_vec.length - 1) :
    Tree.applyChildren target hw ws depth (c :: rest) =
      .ok (.mk { target with overlay := .upperModification } c.children :: rest, true) := by
  simp only [Tree.applyChildren]
  rw [if_neg (not_not_intro h), if_pos hd]

/-- A matching directory child in which the recursive application succeeds
ends the loop (tree.rs lines 138-144). -/
theorem Tree.applyChildren_hit {target : Node} {hw : Bool} {ws : WhiteoutSpec}
    {depth : Nat} {c c1 : Tree} {rest : List Tree}
    (h : target.target_vec.getD depth "" = c.node.name)
    (hd : ¬ depth = target.target_vec.length - 1)
    (hdir : c.node.isDir = true)
    (hrec : c.applyBody target hw ws = .ok (c1, true)) :
    Tree.applyChildren target hw ws depth (c :: rest) = .ok (c1 :: rest, true) := by
  simp only [Tree.applyChildren]
  rw [if_neg (not_not_intro h), if_neg hd, if_pos hdir, hrec]
  rfl

/-- A matching directory child in which the recursive application finds
nothing is kept (possibly updated) and the loop moves on. -/
theorem Tree.applyChildren_miss {target : Node} {hw : Bool} {ws : WhiteoutSpec}
    {depth : Nat} {c c1 : Tree} {rest rest1 : List Tree} {f : Bool}
    (h : target.target_vec.getD depth "" = c.node.name)
    (hd : ¬ depth = target.target_vec.length - 1)
    (hdir : c.node.isDir = true)
    (hrec : c.applyBody target hw ws = .ok (c1, false))
    (hr : Tree.applyChildren target hw ws depth rest = .ok (rest1, f)) :
    Tree.applyChildren target hw ws depth (c :: rest) = .ok (c1 :: rest1, f) := by
  simp only [Tree.applyChildren]
  rw [if_neg (not_not_intro h), if_neg hd, if_pos hdir, hrec]
  show (Tree.applyChildren target hw ws depth rest).bind _ = _
  rw [hr]
  rfl

/-- A matching non-directory child at the wrong depth is passed over
(the loop falls through to the next child). -/
theorem Tree.applyChildren_nondir {target : Node} {hw : Bool} {ws : WhiteoutSpec}
    {depth : Nat} {c : Tree} {rest rest1 : List Tree} {f : Bool}
    (h : target.target_vec.getD depth "" = c.node.name)
    (hd : ¬ depth = target.target_vec.length - 1)
    (hdir : ¬ c.node.isDir = true)
    (hr : Tree.applyChildren target hw ws depth rest = .ok (rest1, f)) :
    Tree.applyChildren target hw ws depth (c :: rest) = .ok (c :: rest1, f) := by
  simp only [Tree.applyChildren]
  rw [if_neg (not_not_intro h), if_neg hd, if_neg hdir, hr]
  rfl

/-! Global facts about `Tree.remove`: it has no failure path, and a `false`
result leaves the tree untouched.  Proved by strong induction on the size of
the tree, covering the mutual recursion with `Tree.removeChildren`. -/

theorem removeAux : ∀ N : Nat,
    (∀ t : Tree, sizeOf t < N → ∀ (target : Node) (wt : WhiteoutType) (o pn : Option String),
        (∃ r, t.remove target wt o pn = .ok r) ∧
        (∀ t1, t.remove target wt o pn = .ok (t1, false) → t1 = t)) ∧
    (∀ cs : List Tree, sizeOf cs < N → ∀ (target : Node) (wt : WhiteoutType)
        (o pn : Option String) (depth tplen : Nat),
        (∃ r, Tree.removeChildren target wt o pn depth tplen cs = .ok r) ∧
        (∀ cs1, Tree.removeChildren target wt o pn depth tplen cs = .ok (cs1, false) →
          cs1 = cs)) := by
  intro N
  induction N with
  | zero =>
    constructor
    · intro t ht; exact absurd ht (Nat.not_lt_zero _)
    · intro cs hcs; exact absurd hcs (Nat.not_lt_zero _)
  | succ n ih =>
    obtain ⟨ihT, ihL⟩ := ih
    constructor
    · intro t ht target wt o pn
      obtain ⟨nd, cs⟩ := t
      have hcs : sizeOf cs < n := by
        have hs := Tree.mk.sizeOf_spec nd cs
        omega
      by_cases hg : target.target_vec.length ≤ nd.target_vec.length ∨
          nd.target_vec.getD (nd.target_vec.length - 1) "" ≠
            target.target_vec.getD (nd.target_vec.length - 1) ""
      · refine ⟨⟨_, Tree.remove_guard wt o pn hg⟩, ?_⟩
        intro t1 h1
        rw [Tree.remove_guard wt o pn hg] at h1
        injection h1 with h2
        injection h2 with ha hb
        exact ha.symm
      · by_cases hr : nd.target_vec.length = 1 ∧
            (wt = .ociOpaque ∧ target.target_vec.length = 2 ∨
             wt = .overlayFsOpaque ∧ target.target_vec.length = 1)
        · refine ⟨⟨_, Tree.remove_rootOpaque o pn hg hr⟩, ?_⟩
          intro t1 h1
          rw [Tree.remove_rootOpaque o pn hg hr] at h1
          injection h1 with h2
          injection h2 with ha hb
          cases hb
        · obtain ⟨⟨⟨cs1, f⟩, hok⟩, hfalse⟩ :=
            ihL cs hcs target wt o pn nd.target_vec.length target.target_vec.length
          refine ⟨⟨_, Tree.remove_descend hg hr hok⟩, ?_⟩
          intro t1 h1
          rw [Tree.remove_descend hg hr hok] at h1
          injection h1 with h2
          injection h2 with ha hb
          subst hb
          rw [hfalse cs1 hok] at ha
          exact ha.symm
    · intro cs hcs target wt o pn depth tplen
      cases cs with
      | nil =>
        refine ⟨⟨([], false), rfl⟩, ?_⟩
        intro cs1 h1
        injection h1 with h2
        injection h2 with ha hb
        exact ha.symm
      | cons c rest =>
        have hszc : sizeOf c < n := by
          have hs := List.cons.sizeOf_spec c rest
          omega
        have hszr : sizeOf rest < n := by
          have hs := List.cons.sizeOf_spec c rest
          omega
        by_cases h1 : depth = tplen - 1 ∧ wt.isRemoval = true ∧ o = some c.node.name
        · refine ⟨⟨_, Tree.removeChildren_removal h1⟩, ?_⟩
          intro cs1 hx
          rw [Tree.removeChildren_removal h1] at hx
          injection hx with h2
          injection h2 with ha hb
          cases hb
        · by_cases h2 : wt = .ociOpaque ∧ 2 ≤ tplen ∧ depth = tplen - 2
              ∧ pn = some c.node.name
          · refine ⟨⟨_, Tree.removeChildren_ociOpaque h1 h2⟩, ?_⟩
            intro cs1 hx
            rw [Tree.removeChildren_ociOpaque h1 h2] at hx
            injection hx with hy
            injection hy with ha hb
            cases hb
          · by_cases h3 : wt = .overlayFsOpaque ∧ depth = tplen - 1
                ∧ target.name = c.node.name
            · refine ⟨⟨_, Tree.removeChildren_ovlOpaque h1 h2 h3⟩, ?_⟩
              intro cs1 hx
              rw [Tree.removeChildren_ovlOpaque h1 h2 h3] at hx
              injection hx with hy
              injection hy with ha hb
              cases hb
            · obtain ⟨⟨⟨rest1, fr⟩, hrok⟩, hrf⟩ := ihL rest hszr target wt o pn depth tplen
              by_cases hdir : c.node.isDir = true
              · obtain ⟨⟨⟨c1, fc⟩, hcok⟩, hcf⟩ := ihT c hszc target wt o pn
                cases fc with
                | true =>
                  refine ⟨⟨_, Tree.removeChildren_hit h1 h2 h3 hdir hcok⟩, ?_⟩
                  intro cs1 hx
                  rw [Tree.removeChildren_hit h1 h2 h3 hdir hcok] at hx
                  injection hx with hy
                  injection hy with ha hb
                  cases hb
                | false =>
                  have hc1 : c1 = c := hcf c1 hcok
                  subst hc1
                  refine ⟨⟨_, Tree.removeChildren_skip h1 h2 h3 (fun _ => hcok) hrok⟩, ?_⟩
                  intro cs1 hx
                  rw [Tree.removeChildren_skip h1 h2 h3 (fun _ => hcok) hrok] at hx
                  injection hx with hy
                  injection hy with ha hb
                  subst hb
                  rw [hrf rest1 hrok] at ha
                  exact ha.symm
              · refine ⟨⟨_, Tree.removeChildren_skip h1 h2 h3
                  (fun hd => absurd hd hdir) hrok⟩, ?_⟩
                intro cs1 hx
                rw [Tree.removeChildren_skip h1 h2 h3 (fun hd => absurd hd hdir) hrok] at hx
                injection hx with hy
                injection hy with ha hb
                subst hb
                rw [hrf rest1 hrok] at ha
                exact ha.symm

/-- `Tree::remove` has no failure path. -/
theorem Tree.remove_ok (t : Tree) (target : Node) (wt : WhiteoutType)
    (o pn : Option String) : ∃ r, t.remove target wt o pn = .ok r :=
  ((removeAux (sizeOf t + 1)).1 t (Nat.lt_succ_self _) target wt o pn).1

/-- A `false` result of `Tree::remove` leaves the tree untouched. -/
theorem Tree.remove_false {t t1 : Tree} {target : Node} {wt : WhiteoutType}
    {o pn : Option String} (h : t.remove target wt o pn = .ok (t1, false)) :
    t1 = t :=
  ((removeAux (sizeOf t + 1)).1 t (Nat.lt_succ_self _) target wt o pn).2 t1 h

/-! The same two global facts for `Tree.applyBody`. -/

theorem applyAux : ∀ N : Nat,
    (∀ t : Tree, sizeOf t < N → ∀ (target : Node) (hw : Bool) (ws : WhiteoutSpec),
        (∃ r, t.applyBody target hw ws = .ok r) ∧
        (∀ t1, t.applyBody target hw ws = .ok (t1, false) → t1 = t)) ∧
    (∀ cs : List Tree, sizeOf cs < N → ∀ (target : Node) (hw : Bool) (ws : WhiteoutSpec)
        (depth : Nat),
        (∃ r, Tree.applyChildren target hw ws depth cs = .ok r) ∧
        (∀ cs1, Tree.applyChildren target hw ws depth cs = .ok (cs1, false) →
          cs1 = cs)) := by
  intro N
  induction N with
  | zero =>
    constructor
    · intro t ht; exact absurd ht (Nat.not_lt_zero _)
    · intro cs hcs; exact absurd hcs (Nat.not_lt_zero _)
  | succ n ih =>
    obtain ⟨ihT, ihL⟩ := ih
    constructor
    · intro t ht target hw ws
      obtain ⟨nd, cs⟩ := t
      have hcs : sizeOf cs < n := by
        have hs := Tree.mk.sizeOf_spec nd cs
        omega
      by_cases hroot : target.pathIsRoot = true
      · refine ⟨⟨_, Tree.applyBody_root hw ws hroot⟩, ?_⟩
        intro t1 h1
        rw [Tree.applyBody_root hw ws hroot] at h1
        injection h1 with h2
        injection h2 with ha hb
        cases hb
      · have hroot' : target.pathIsRoot = false := by simpa using hroot
        by_cases hlt : nd.target_vec.length < target.target_vec.length
        · obtain ⟨⟨⟨cs1, f⟩, hok⟩, hfalse⟩ := ihL cs hcs target hw ws nd.target_vec.length
          cases f with
          | true =>
            refine ⟨⟨_, Tree.applyBody_found hroot' hlt hok⟩, ?_⟩
            intro t1 h1
            rw [Tree.applyBody_found hroot' hlt hok] at h1
            injection h1 with h2
            injection h2 with ha hb
            cases hb
          | false =>
            have hcs1 : cs1 = cs := hfalse cs1 hok
            subst hcs1
            have hres := Tree.applyBody_notFound hroot' hlt hok
            by_cases hadd : nd.target_vec.length = target.target_vec.length - 1
                ∧ target.target_vec.getD (nd.target_vec.length - 1) "" = nd.name
            · rw [if_pos hadd] at hres
              refine ⟨⟨_, hres⟩, ?_⟩
              intro t1 h1
              rw [hres] at h1
              injection h1 with h2
              injection h2 with ha hb
              cases hb
            · rw [if_neg hadd] at hres
              refine ⟨⟨_, hres⟩, ?_⟩
              intro t1 h1
              rw [hres] at h1
              injection h1 with h2
              injection h2 with ha hb
              exact ha.symm
        · have hres := Tree.applyBody_deep cs hw ws hroot' hlt
          by_cases hadd : nd.target_vec.length = target.target_vec.length - 1
              ∧ target.target_vec.getD (nd.target_vec.length - 1) "" = nd.name
          · rw [if_pos hadd] at hres
            refine ⟨⟨_, hres⟩, ?_⟩
            intro t1 h1
            rw [hres] at h1
            injection h1 with h2
            injection h2 with ha hb
            cases hb
          · rw [if_neg hadd] at hres
            refine ⟨⟨_, hres⟩, ?_⟩
            intro t1 h1
            rw [hres] at h1
            injection h1 with h2
            injection h2 with ha hb
            exact ha.symm
    · intro cs hcs target hw ws depth
      cases cs with
      | nil =>
        refine ⟨⟨([], false), rfl⟩, ?_⟩
        intro cs1 h1
        injection h1 with h2
        injection h2 with ha hb
        exact ha.symm
      | cons c rest =>
        have hszc : sizeOf c < n := by
          have hs := List.cons.sizeOf_spec c rest
          omega
        have hszr : sizeOf rest < n := by
          have hs := List.cons.sizeOf_spec c rest
          omega
        obtain ⟨⟨⟨rest1, fr⟩, hrok⟩, hrf⟩ := ihL rest hszr target hw ws depth
        by_cases hskip : target.target_vec.getD depth "" ≠ c.node.name
        · refine ⟨⟨_, Tree.applyChildren_skip hskip hrok⟩, ?_⟩
          intro cs1 hx
          rw [Tree.applyChildren_skip hskip hrok] at hx
          injection hx with hy
          injection hy with ha hb
          subst hb
          rw [hrf rest1 hrok] at ha
          exact ha.symm
        · push_neg at hskip
          by_cases hd : depth = target.target_vec.length - 1
          · refine ⟨⟨_, Tree.applyChildren_modify hskip hd⟩, ?_⟩
            intro cs1 hx
            rw [Tree.applyChildren_modify hskip hd] at hx
            injection hx with hy
            injection hy with ha hb
            cases hb
          · by_cases hdir : c.node.isDir = true
            · obtain ⟨⟨⟨c1, fc⟩, hcok⟩, hcf⟩ := ihT c hszc target hw ws
              cases fc with
              | true =>
                refine ⟨⟨_, Tree.applyChildren_hit hskip hd hdir hcok⟩, ?_⟩
                intro cs1 hx
                rw [Tree.applyChildren_hit hskip hd hdir hcok] at hx
                injection hx with hy
                injection hy with ha hb
                cases hb
              | false =>
                have hc1 : c1 = c := hcf c1 hcok
                subst hc1
                refine ⟨⟨_, Tree.applyChildren_miss hskip hd hdir hcok hrok⟩, ?_⟩
                intro cs1 hx
                rw [Tree.applyChildren_miss hskip hd hdir hcok hrok] at hx
                injection hx with hy
                injection hy with ha hb
                subst hb
                rw [hrf rest1 hrok] at ha
                exact ha.symm
            · refine ⟨⟨_, Tree.applyChildren_nondir hskip hd hdir hrok⟩, ?_⟩
              intro cs1 hx
              rw [Tree.applyChildren_nondir hskip hd hdir hrok] at hx
              injection hx with hy
              injection hy with ha hb
              subst hb
              rw [hrf rest1 hrok] at ha
              exact ha.symm

/-- `Tree::apply` without its whiteout branch has no failure path. -/
theorem Tree.applyBody_ok (t : Tree) (target : Node) (hw : Bool) (ws : WhiteoutSpec) :
    ∃ r, t.applyBody target hw ws = .ok r :=
  ((applyAux (sizeOf t + 1)).1 t (Nat.lt_succ_self _) target hw ws).1

/-- A `false` result of the apply body leaves the tree untouched. -/
theorem Tree.applyBody_false {t t1 : Tree} {target : Node} {hw : Bool}
    {ws : WhiteoutSpec} (h : t.applyBody target hw ws = .ok (t1, false)) :
    t1 = t :=
  ((applyAux (sizeOf t + 1)).1 t (Nat.lt_succ_self _) target hw ws).2 t1 h

/-- The child loop of `Tree::remove` has no failure path. -/
theorem Tree.removeChildren_ok (cs : List Tree) (target : Node) (wt : WhiteoutType)
    (o pn : Option String) (depth tplen : Nat) :
    ∃ r, Tree.removeChildren target wt o pn depth tplen cs = .ok r :=
  ((removeAux (sizeOf cs + 1)).2 cs (Nat.lt_succ_self _) target wt o pn depth tplen).1

/-- The child loop of `Tree::apply` has no failure path. -/
theorem Tree.applyChildren_ok (cs : List Tree) (target : Node) (hw : Bool)
    (ws : WhiteoutSpec) (depth : Nat) :
    ∃ r, Tree.applyChildren target hw ws depth cs = .ok r :=
  ((applyAux (sizeOf cs + 1)).2 cs (Nat.lt_succ_self _) target hw ws depth).1

/-- A node whose path has at least two components is not the root. -/
theorem Node.pathIsRoot_false {n : Node} (h : 2 ≤ n.target_vec.length) :
    n.pathIsRoot = false := by
  rw [Node.pathIsRoot]
  simp only [decide_eq_false_iff_not]
  intro he
  rw [he] at h
  simp at h

/-- If the search loop of `Tree::apply` succeeds on a suffix of the child
list, it succeeds on the whole list. -/
theorem Tree.applyChildren_true_extend {target : Node} {hw : Bool}
    {ws : WhiteoutSpec} {depth : Nat} :
    ∀ (l1 : List Tree) {l2 l2' : List Tree},
    Tree.applyChildren target hw ws depth l2 = .ok (l2', true) →
    ∃ l', Tree.applyChildren target hw ws depth (l1 ++ l2) = .ok (l', true) := by
  intro l1
  induction l1 with
  | nil => intro l2 l2' h; exact ⟨l2', h⟩
  | cons c rest ih =>
    intro l2 l2' h
    obtain ⟨l', hl'⟩ := ih h
    by_cases hskip : target.target_vec.getD depth "" ≠ c.node.name
    · exact ⟨_, Tree.applyChildren_skip hskip hl'⟩
    · push_neg at hskip
      by_cases hd : depth = target.target_vec.length - 1
      · exact ⟨_, Tree.applyChildren_modify hskip hd⟩
      · by_cases hdir : c.node.isDir = true
        · obtain ⟨⟨c1, fc⟩, hcok⟩ := Tree.applyBody_ok c target hw ws
          cases fc with
          | true => exact ⟨_, Tree.applyChildren_hit hskip hd hdir hcok⟩
          | false => exact ⟨_, Tree.applyChildren_miss hskip hd hdir hcok hl'⟩
        · exact ⟨_, Tree.applyChildren_nondir hskip hd hdir hl'⟩

/-- A successful OverlayFS-opaque removal on a target path of length at least
two keeps the root node of the tree it worked on and implies the depth guard
held. -/
theorem Tree.remove_true_node {t t1 : Tree} {u : Node} {o pn : Option String}
    (htp : u.target_vec.length ≠ 1)
    (h : t.remove u .overlayFsOpaque o pn = .ok (t1, true)) :
    t1.node = t.node ∧ t.node.target_vec.length < u.target_vec.length ∧
      t.node.target_vec.getD (t.node.target_vec.length - 1) "" =
        u.target_vec.getD (t.node.target_vec.length - 1) "" := by
  obtain ⟨nd, cs⟩ := t
  by_cases hg : u.target_vec.length ≤ nd.target_vec.length ∨
      nd.target_vec.getD (nd.target_vec.length - 1) "" ≠
        u.target_vec.getD (nd.target_vec.length - 1) ""
  · rw [Tree.remove_guard _ o pn hg] at h
    injection h with h2
    injection h2 with ha hb
    cases hb
  · push_neg at hg
    by_cases hr : nd.target_vec.length = 1 ∧
        (WhiteoutType.overlayFsOpaque = .ociOpaque ∧ u.target_vec.length = 2 ∨
         WhiteoutType.overlayFsOpaque = .overlayFsOpaque ∧ u.target_vec.length = 1)
    · rcases hr.2 with ⟨hwt, -⟩ | ⟨-, hlen⟩
      · exact absurd hwt (by decide)
      · exact absurd hlen htp
    · obtain ⟨⟨cs1, f⟩, hok⟩ :=
        Tree.removeChildren_ok cs u .overlayFsOpaque o pn
          nd.target_vec.length u.target_vec.length
      rw [Tree.remove_descend (by push_neg; exact hg) hr hok] at h
      injection h with h2
      injection h2 with ha hb
      refine ⟨?_, hg.1, hg.2⟩
      rw [← ha]
      rfl

/-- Inversion of a successful pass of the `Tree::remove` child loop for the
OverlayFS-opaque whiteout type: some child was either marked opaque in place
or rewritten by a successful recursive removal, and the children before it
were left alone. -/
theorem Tree.removeChildren_true_inv {target : Node} {o pn : Option String}
    {depth tplen : Nat} :
    ∀ (cs cs1 : List Tree),
    Tree.removeChildren target .overlayFsOpaque o pn depth tplen cs = .ok (cs1, true) →
    ∃ pre c rest, cs = pre ++ c :: rest ∧
      ((depth = tplen - 1 ∧ target.name = c.node.name ∧
        cs1 = pre ++ .mk { c.node with overlay := .upperOpaque } [] :: rest) ∨
       (c.node.isDir = true ∧ ∃ c1,
        c.remove target .overlayFsOpaque o pn = .ok (c1, true) ∧
        cs1 = pre ++ c1 :: rest)) := by
  intro cs
  induction cs with
  | nil =>
    intro cs1 h
    injection h with h2
    injection h2 with ha hb
    cases hb
  | cons c rest ih =>
    intro cs1 h
    have h1 : ¬ (depth = tplen - 1 ∧ WhiteoutType.isRemoval .overlayFsOpaque = true
        ∧ o = some c.node.name) := by
      rintro ⟨-, hrm, -⟩
      exact absurd hrm (by decide)
    have h2 : ¬ (WhiteoutType.overlayFsOpaque = .ociOpaque ∧ 2 ≤ tplen
        ∧ depth = tplen - 2 ∧ pn = some c.node.name) := by
      rintro ⟨hwt, -⟩
      exact absurd hwt (by decide)
    by_cases h3 : WhiteoutType.overlayFsOpaque = .overlayFsOpaque ∧ depth = tplen - 1
        ∧ target.name = c.node.name
    · rw [Tree.removeChildren_ovlOpaque h1 h2 h3] at h
      injection h with hy
      injection hy with ha hb
      exact ⟨[], c, rest, rfl, Or.inl ⟨h3.2.1, h3.2.2, ha.symm⟩⟩
    · have hcont : ∀ rest1 : List Tree,
          Tree.removeChildren target .overlayFsOpaque o pn depth tplen rest
            = .ok (rest1, true) →
          cs1 = c :: rest1 →
          ∃ pre c' rest', c :: rest = pre ++ c' :: rest' ∧
            ((depth = tplen - 1 ∧ target.name = c'.node.name ∧
              cs1 = pre ++ .mk { c'.node with overlay := .upperOpaque } [] :: rest') ∨
             (c'.node.isDir = true ∧ ∃ c1,
              c'.remove target .overlayFsOpaque o pn = .ok (c1, true) ∧
              cs1 = pre ++ c1 :: rest')) := by
        intro rest1 hrok hacs
        obtain ⟨pre, c', rest', hsplit, hcase⟩ := ih rest1 hrok
        refine ⟨c :: pre, c', rest', by rw [hsplit]; rfl, ?_⟩
        rcases hcase with ⟨hdd, hnm, hcs1⟩ | ⟨hdir', c1, hc1, hcs1⟩
        · exact Or.inl ⟨hdd, hnm, by rw [hacs, hcs1]; rfl⟩
        · exact Or.inr ⟨hdir', c1, hc1, by rw [hacs, hcs1]; rfl⟩
      by_cases hdir : c.node.isDir = true
      · obtain ⟨⟨c1, fc⟩, hcok⟩ := Tree.remove_ok c target .overlayFsOpaque o pn
        cases fc with
        | true =>
          rw [Tree.removeChildren_hit h1 h2 h3 hdir hcok] at h
          injection h with hy
          injection hy with ha hb
          exact ⟨[], c, rest, rfl, Or.inr ⟨hdir, c1, hcok, ha.symm⟩⟩
        | false =>
          have hc1 : c1 = c := Tree.remove_false hcok
          subst hc1
          obtain ⟨⟨rest1, fr⟩, hrok⟩ :=
            Tree.removeChildren_ok rest target .overlayFsOpaque o pn depth tplen
          rw [Tree.removeChildren_skip h1 h2 h3 (fun _ => hcok) hrok] at h
          injection h with hy
          injection hy with ha hb
          subst hb
          exact hcont rest1 hrok ha.symm
      · obtain ⟨⟨rest1, fr⟩, hrok⟩ :=
          Tree.removeChildren_ok rest target .overlayFsOpaque o pn depth tplen
        rw [Tree.removeChildren_skip h1 h2 h3 (fun hd => absurd hd hdir) hrok] at h
        injection h with hy
        injection hy with ha hb
        subst hb
        exact hcont rest1 hrok ha.symm

/-- On a well-formed tree, after a successful OverlayFS-opaque removal the
re-application of the upper node (with whiteout handling off) also succeeds:
the position the removal found is still there, now opaque, and the
modification branch replaces it. -/
theorem Tree.remove_true_applyBody (ws : WhiteoutSpec) :
    ∀ N : Nat, ∀ t : Tree, sizeOf t < N → ∀ (p : List String) (u : Node)
      (o pn : Option String) (t1 : Tree),
    t.wfAt p = true →
    t.remove u .overlayFsOpaque o pn = .ok (t1, true) →
    ∃ t2, t1.applyBody u false ws = .ok (t2, true) := by
  intro N
  induction N with
  | zero => intro t ht; exact absurd ht (Nat.not_lt_zero _)
  | succ n ih =>
    intro t ht p u o pn t1 hwf hrem
    obtain ⟨nd, cs⟩ := t
    have hnd : nd.target_vec = p := Tree.wfAt_tv hwf
    have hp : p ≠ [] := Tree.wfAt_ne_nil hwf
    by_cases hg : u.target_vec.length ≤ nd.target_vec.length ∨
        nd.target_vec.getD (nd.target_vec.length - 1) "" ≠
          u.target_vec.getD (nd.target_vec.length - 1) ""
    · rw [Tree.remove_guard _ o pn hg] at hrem
      injection hrem with h2
      injection h2 with ha hb
      cases hb
    · push_neg at hg
      have hdep1 : 1 ≤ nd.target_vec.length := by
        rw [hnd]
        exact List.length_pos.mpr hp
      have htplen : 2 ≤ u.target_vec.length := by omega
      have htp1 : u.target_vec.length ≠ 1 := by omega
      by_cases hr : nd.target_vec.length = 1 ∧
          (WhiteoutType.overlayFsOpaque = .ociOpaque ∧ u.target_vec.length = 2 ∨
           WhiteoutType.overlayFsOpaque = .overlayFsOpaque ∧ u.target_vec.length = 1)
      · rcases hr.2 with ⟨hwt, -⟩ | ⟨-, hlen⟩
        · exact absurd hwt (by decide)
        · exact absurd hlen htp1
      · obtain ⟨⟨cs1, f⟩, hok⟩ :=
          Tree.removeChildren_ok cs u .overlayFsOpaque o pn
            nd.target_vec.length u.target_vec.length
        rw [Tree.remove_descend (by push_neg; exact hg) hr hok] at hrem
        injection hrem with h2
        injection h2 with ha hb
        subst hb
        obtain ⟨pre, c, restcs, hsplit, hcase⟩ := Tree.removeChildren_true_inv cs cs1 hok
        have hroot' : u.pathIsRoot = false := Node.pathIsRoot_false htplen
        have hlt : nd.target_vec.length < u.target_vec.length := hg.1
        have hune : u.target_vec ≠ [] := by
          intro he
          rw [he] at htplen
          simp at htplen
        have hulast : u.target_vec.getD (u.target_vec.length - 1) "" = u.name := by
          rw [Node.name]
          exact getD_length_sub_one _ hune
        rcases hcase with ⟨hdd, hnm, hcs1⟩ | ⟨hdir, c1, hc1, hcs1⟩
        · have hmatch : u.target_vec.getD nd.target_vec.length ""
              = (Tree.mk { c.node with overlay := .upperOpaque } []).node.name := by
            show u.target_vec.getD nd.target_vec.length "" = c.node.name
            rw [← hnm, ← hulast, hdd]
          have hsuff : Tree.applyChildren u false ws nd.target_vec.length
              (Tree.mk { c.node with overlay := .upperOpaque } [] :: restcs) =
              .ok (Tree.mk { u with overlay := .upperModification }
                (Tree.mk { c.node with overlay := .upperOpaque } []).children
                :: restcs, true) :=
            Tree.applyChildren_modify hmatch hdd
          obtain ⟨l', hl'⟩ := Tree.applyChildren_true_extend pre hsuff
          refine ⟨Tree.mk nd l', ?_⟩
          rw [← ha, hcs1]
          exact Tree.applyBody_found hroot' hlt hl'
        · have hmem : c ∈ cs := by
            rw [hsplit]
            exact List.mem_append_right _ (List.mem_cons_self _ _)
          have hcwf : c.wfAt (p ++ [c.node.name]) = true :=
            Tree.wfList_mem (Tree.wfAt_children hwf) hmem
          have hctv : c.node.target_vec = p ++ [c.node.name] := Tree.wfAt_tv hcwf
          have hszc : sizeOf c < n := by
            have h1 := List.sizeOf_lt_of_mem hmem
            have h2 := Tree.mk.sizeOf_spec nd cs
            omega
          obtain ⟨c2, hc2⟩ := ih c hszc (p ++ [c.node.name]) u o pn c1 hcwf hc1
          obtain ⟨hc1node, hclt, hcguard⟩ := Tree.remove_true_node htp1 hc1
          have hlenc : c.node.target_vec.length = p.length + 1 := by
            rw [hctv]
            simp
          have hcname : c.node.target_vec.getD (c.node.target_vec.length - 1) ""
              = c.node.name := by
            rw [Node.name]
            exact getD_length_sub_one _ (by rw [hctv]; simp)
          have hmatch : u.target_vec.getD nd.target_vec.length "" = c1.node.name := by
            have hn1 : c1.node.name = c.node.name := by rw [hc1node]
            rw [hn1, ← hcname, hcguard]
            congr 1
            rw [hlenc, hnd]
            omega
          by_cases hd : nd.target_vec.length = u.target_vec.length - 1
          · have hsuff : Tree.applyChildren u false ws nd.target_vec.length
                (c1 :: restcs) =
                .ok (Tree.mk { u with overlay := .upperModification } c1.children
                  :: restcs, true) :=
              Tree.applyChildren_modify hmatch hd
            obtain ⟨l', hl'⟩ := Tree.applyChildren_true_extend pre hsuff
            refine ⟨Tree.mk nd l', ?_⟩
            rw [← ha, hcs1]
            exact Tree.applyBody_found hroot' hlt hl'
          · have hdir1 : c1.node.isDir = true := by
              rw [hc1node]
              exact hdir
            have hsuff : Tree.applyChildren u false ws nd.target_vec.length
                (c1 :: restcs) = .ok (c2 :: restcs, true) :=
              Tree.applyChildren_hit hmatch hd hdir1 hc2
            obtain ⟨l', hl'⟩ := Tree.applyChildren_true_extend pre hsuff
            refine ⟨Tree.mk nd l', ?_⟩
            rw [← ha, hcs1]
            exact Tree.applyBody_found hroot' hlt hl'

/-- With whiteout handling on, a non-OverlayFS-opaque whiteout target makes
`Tree::apply` delegate to `Tree::remove` (tree.rs line 104). -/
theorem Tree.apply_whiteout {t : Tree} {target : Node} {ws : WhiteoutSpec}
    {wt : WhiteoutType} (h : target.whiteoutType ws = some wt)
    (hne : ¬ wt = .overlayFsOpaque) :
    t.apply target true ws =
      t.remove target wt (target.originName wt) target.parentName := by
  simp [Tree.apply, h, hne]

/-- With whiteout handling on, an OverlayFS-opaque target makes `Tree::apply`
first remove and then re-apply with whiteout handling off (tree.rs lines
100-103). -/
theorem Tree.apply_whiteout_opaque {t t' : Tree} {target : Node}
    {ws : WhiteoutSpec} {f : Bool}
    (h : target.whiteoutType ws = some .overlayFsOpaque)
    (hr : t.remove target .overlayFsOpaque
      (target.originName .overlayFsOpaque) target.parentName = .ok (t', f)) :
    t.apply target true ws = t'.applyBody target false ws := by
  simp only [Tree.apply, h, hr, if_pos]
  rfl

/-- For a non-whiteout target, `Tree::apply` is its body. -/
theorem Tree.apply_not_whiteout {t : Tree} {target : Node} {ws : WhiteoutSpec}
    (hw : Bool) (h : target.whiteoutType ws = none) :
    t.apply target hw ws = t.applyBody target hw ws :=
  apply_eq_applyBody t target hw ws (Or.inr h)

/-- Return-value semantics of `Tree::apply` on a well-formed lower tree: no
input makes it fail, and a `false` result means the tree was left exactly as
it was. -/
theorem Tree.apply_return_semantics (t : Tree) (target : Node) (hw : Bool)
    (ws : WhiteoutSpec) (hwf : t.wf = true) :
    (∃ r, t.apply target hw ws = .ok r) ∧
    (∀ t1, t.apply target hw ws = .ok (t1, false) → t1 = t) := by
  cases hw with
  | false =>
    rw [apply_eq_applyBody t target false ws (Or.inl rfl)]
    exact ⟨Tree.applyBody_ok t target false ws, fun _ h => Tree.applyBody_false h⟩
  | true =>
    cases hwt : target.whiteoutType ws with
    | none =>
      rw [Tree.apply_not_whiteout true hwt]
      exact ⟨Tree.applyBody_ok t target true ws, fun _ h => Tree.applyBody_false h⟩
    | some wt =>
      by_cases hne : wt = .overlayFsOpaque
      · subst hne
        obtain ⟨⟨t', f⟩, hr⟩ := Tree.remove_ok t target .overlayFsOpaque
          (target.originName .overlayFsOpaque) target.parentName
        rw [Tree.apply_whiteout_opaque hwt hr]
        constructor
        · exact Tree.applyBody_ok t' target false ws
        · intro t1 h1
          cases f with
          | true =>
            rw [Tree.wf] at hwf
            obtain ⟨t2, h2⟩ := Tree.remove_true_applyBody ws (sizeOf t + 1) t
              (Nat.lt_succ_self _) ["/"] target
              (target.originName .overlayFsOpaque) target.parentName t' hwf hr
            rw [h2] at h1
            injection h1 with h3
            injection h3 with ha hb
            cases hb
          | false =>
            have ht' : t' = t := Tree.remove_false hr
            subst ht'
            exact Tree.applyBody_false h1
      · rw [Tree.apply_whiteout hwt hne]
        exact ⟨Tree.remove_ok t target wt (target.originName wt) target.parentName,
          fun _ h => Tree.remove_false h⟩

/-- Replace the subtree reached by following `rel` (nonempty) by `s`. -/
def Tree.substAt : Tree → List String → Tree → Tree
  | .mk nd cs, [n], s => .mk nd (modifyFirstNamed n (fun _ => s) cs)
  | .mk nd cs, n :: rest, s => .mk nd (modifyFirstNamed n (fun c => c.substAt rest s) cs)
  | t, [], _ => t

/-! Plumbing for the walk lemmas: decomposing a child list at the first child
with a wanted name, and pushing a skipped prefix through the loops. -/

/-- `Tree.opaqueAt` does not change the root node's name. -/
theorem Tree.opaqueAt_name (t : Tree) (rel : List String) :
    (t.opaqueAt rel).node.name = t.node.name := by
  obtain ⟨nd, cs⟩ := t
  cases rel with
  | nil => rfl
  | cons n rest => rfl

/-- `Tree.opaqueAt` does not change whether the root node is a directory. -/
theorem Tree.opaqueAt_isDir (t : Tree) (rel : List String) :
    (t.opaqueAt rel).node.isDir = t.node.isDir := by
  obtain ⟨nd, cs⟩ := t
  cases rel with
  | nil => rfl
  | cons n rest => rfl

/-- In a list whose members with the wanted name are unique, a successful
`any` search for a named member satisfying `P` splits the list at that
member, everything before it having a different name. -/
theorem firstNamed_split {cs : List Tree} {n : String} {P : Tree → Bool}
    (hnd : namesNodup cs = true)
    (hany : (cs.any fun c => c.node.name = n && P c) = true) :
    ∃ pre c post, cs = pre ++ c :: post ∧ c.node.name = n ∧ P c = true ∧
      ∀ x ∈ pre, x.node.name ≠ n := by
  induction cs with
  | nil => simp at hany
  | cons c rest ih =>
    rw [List.any_cons] at hany
    rw [namesNodup] at hnd
    simp only [Bool.and_eq_true, Bool.not_eq_true'] at hnd
    rcases Bool.or_eq_true_iff.mp hany with hc | hrest
    · simp only [Bool.and_eq_true, decide_eq_true_eq] at hc
      exact ⟨[], c, rest, rfl, hc.1, hc.2, by simp⟩
    · obtain ⟨pre, c', post, hsplit, hname, hP, hpre⟩ := ih hnd.2 hrest
      refine ⟨c :: pre, c', post, by rw [hsplit]; rfl, hname, hP, ?_⟩
      intro x hx
      rcases List.mem_cons.mp hx with hx | hx
      · subst hx
        intro he
        have : (rest.any fun d => d.node.name = x.node.name) = true := by
          rw [List.any_eq_true]
          refine ⟨c', by rw [hsplit]; exact List.mem_append_right _ (List.mem_cons_self _ _), ?_⟩
          simp [hname, he]
        rw [this] at hnd
        exact absurd hnd.1 (by simp)
      · exact hpre x hx

/-- `modifyFirstNamed` on a list split at its first wanted name rewrites
exactly that member. -/
theorem modifyFirstNamed_append {pre : List Tree} {c : Tree} {post : List Tree}
    {n : String} (g : Tree → Tree)
    (hpre : ∀ x ∈ pre, x.node.name ≠ n) (hc : c.node.name = n) :
    modifyFirstNamed n g (pre ++ c :: post) = pre ++ g c :: post := by
  induction pre with
  | nil => simp [modifyFirstNamed, hc]
  | cons x rest ih =>
    rw [List.cons_append, modifyFirstNamed,
      if_neg (hpre x (List.mem_cons_self _ _)), List.cons_append]
    rw [ih (fun y hy => hpre y (List.mem_cons_of_mem _ hy))]

/-- `eraseFirstNamed` on a list split at its first wanted name drops exactly
that member. -/
theorem eraseFirstNamed_append {pre : List Tree} {c : Tree} {post : List Tree}
    {n : String} (hpre : ∀ x ∈ pre, x.node.name ≠ n) (hc : c.node.name = n) :
    eraseFirstNamed n (pre ++ c :: post) = pre ++ post := by
  induction pre with
  | nil => simp [eraseFirstNamed, hc]
  | cons x rest ih =>
    rw [List.cons_append, eraseFirstNamed,
      if_neg (hpre x (List.mem_cons_self _ _)), List.cons_append]
    rw [ih (fun y hy => hpre y (List.mem_cons_of_mem _ hy))]

/-- Pushing a fully skipped prefix through the `Tree::remove` child loop. -/
theorem Tree.removeChildren_prefix {target : Node} {wt : WhiteoutType}
    {o pn : Option String} {depth tplen : Nat} :
    ∀ (pre : List Tree), (∀ x ∈ pre,
      ¬ (depth = tplen - 1 ∧ wt.isRemoval = true ∧ o = some x.node.name) ∧
      ¬ (wt = .ociOpaque ∧ 2 ≤ tplen ∧ depth = tplen - 2 ∧ pn = some x.node.name) ∧
      ¬ (wt = .overlayFsOpaque ∧ depth = tplen - 1 ∧ target.name = x.node.name) ∧
      (x.node.isDir = true → x.remove target wt o pn = .ok (x, false))) →
    ∀ {l r : List Tree} {f : Bool},
    Tree.removeChildren target wt o pn depth tplen l = .ok (r, f) →
    Tree.removeChildren target wt o pn depth tplen (pre ++ l) = .ok (pre ++ r, f) := by
  intro pre
  induction pre with
  | nil => intro _ l r f h; exact h
  | cons x rest ih =>
    intro hpre l r f h
    obtain ⟨h1, h2, h3, h4⟩ := hpre x (List.mem_cons_self _ _)
    rw [List.cons_append, List.cons_append]
    exact Tree.removeChildren_skip h1 h2 h3 h4
      (ih (fun y hy => hpre y (List.mem_cons_of_mem _ hy)) h)

/-- Pushing a fully skipped prefix through the `Tree::apply` child loop. -/
theorem Tree.applyChildren_prefix {target : Node} {hw : Bool} {ws : WhiteoutSpec}
    {depth : Nat} :
    ∀ (pre : List Tree), (∀ x ∈ pre, target.target_vec.getD depth "" ≠ x.node.name) →
    ∀ {l r : List Tree} {f : Bool},
    Tree.applyChildren target hw ws depth l = .ok (r, f) →
    Tree.applyChildren target hw ws depth (pre ++ l) = .ok (pre ++ r, f) := by
  intro pre
  induction pre with
  | nil => intro _ l r f h; exact h
  | cons x rest ih =>
    intro hpre l r f h
    rw [List.cons_append, List.cons_append]
    exact Tree.applyChildren_skip (hpre x (List.mem_cons_self _ _))
      (ih (fun y hy => hpre y (List.mem_cons_of_mem _ hy)) h)

/-- A well-formed child whose name differs from the next component of the
target path is left alone by `Tree::remove`: the path guard stops it. -/
theorem child_remove_skip {c : Tree} {p : List String} {u : Node}
    (wt : WhiteoutType) (o pn : Option String) {suffix : List String}
    (hctv : c.node.target_vec = p ++ [c.node.name])
    (htv : u.target_vec = p ++ suffix)
    (hname : suffix.length ≤ 1 ∨ c.node.name ≠ suffix.getD 0 "") :
    c.remove u wt o pn = .ok (c, false) := by
  apply Tree.remove_guard
  have hclen : c.node.target_vec.length = p.length + 1 := by
    rw [hctv]
    simp
  have hshort : suffix.length ≤ 1 →
      u.target_vec.length ≤ c.node.target_vec.length ∨
      c.node.target_vec.getD (c.node.target_vec.length - 1) "" ≠
        u.target_vec.getD (c.node.target_vec.length - 1) "" := by
    intro hs
    left
    rw [htv, hclen]
    simp only [List.length_append]
    omega
  rcases hname with hs | hs
  · exact hshort hs
  · by_cases hsl : suffix.length ≤ 1
    · exact hshort hsl
    · right
      rw [hclen]
      simp only [Nat.add_sub_cancel]
      rw [hctv, getD_append_length, htv,
        List.getD_append_right _ _ _ _ (le_refl _), Nat.sub_self]
      exact hs

/-- Walking lemma for OCI removals: on a well-formed tree, a removal whiteout
located in the directory reached by `q` deletes that directory's child named
`name` and reports `true`.  `w` is the whiteout file's own name. -/
theorem Tree.remove_removal_deep :
    ∀ (q : List String) (t : Tree) (p : List String) (u : Node) (w name : String)
      (pn : Option String),
    t.wfAt p = true →
    u.target_vec = (p ++ q) ++ [w] →
    t.hasChildAt q name = true →
    t.remove u .ociRemoval (some name) pn = .ok (t.eraseChildAt q name, true) := by
  intro q
  induction q with
  | nil =>
    intro t p u w name pn hwf htv hchild
    obtain ⟨nd, cs⟩ := t
    rw [List.append_nil] at htv
    have hnd : nd.target_vec = p := Tree.wfAt_tv hwf
    have hp : p ≠ [] := Tree.wfAt_ne_nil hwf
    have hplen : 1 ≤ p.length := List.length_pos.mpr hp
    have hndlen : nd.target_vec.length = p.length := by rw [hnd]
    have htplen : u.target_vec.length = p.length + 1 := by
      rw [htv]
      simp
    have hg : ¬ (u.target_vec.length ≤ nd.target_vec.length ∨
        nd.target_vec.getD (nd.target_vec.length - 1) "" ≠
          u.target_vec.getD (nd.target_vec.length - 1) "") := by
      push_neg
      refine ⟨by omega, ?_⟩
      rw [hnd, htv, List.getD_append _ _ _ _ (by omega)]
    have hro : ¬ (nd.target_vec.length = 1 ∧
        (WhiteoutType.ociRemoval = .ociOpaque ∧ u.target_vec.length = 2 ∨
         WhiteoutType.ociRemoval = .overlayFsOpaque ∧ u.target_vec.length = 1)) := by
      rintro ⟨-, ⟨h, -⟩ | ⟨h, -⟩⟩ <;> exact absurd h (by decide)
    have hany : (cs.any fun c => decide (c.node.name = name) && (fun _ => true) c)
        = true := by
      rw [Tree.hasChildAt] at hchild
      simpa using hchild
    obtain ⟨pre, c, post, hsplit, hcname, -, hpre⟩ :=
      firstNamed_split (Tree.wfAt_nodup hwf) hany
    have hwfl : Tree.wfList cs p = true := Tree.wfAt_children hwf
    subst hsplit
    have hfire : Tree.removeChildren u .ociRemoval (some name) pn
        nd.target_vec.length u.target_vec.length (c :: post) = .ok (post, true) :=
      Tree.removeChildren_removal ⟨by omega, rfl, by rw [hcname]⟩
    have hprefacts : ∀ x ∈ pre,
        ¬ (nd.target_vec.length = u.target_vec.length - 1 ∧
           WhiteoutType.isRemoval .ociRemoval = true ∧ some name = some x.node.name) ∧
        ¬ (WhiteoutType.ociRemoval = .ociOpaque ∧ 2 ≤ u.target_vec.length ∧
           nd.target_vec.length = u.target_vec.length - 2 ∧ pn = some x.node.name) ∧
        ¬ (WhiteoutType.ociRemoval = .overlayFsOpaque ∧
           nd.target_vec.length = u.target_vec.length - 1 ∧ u.name = x.node.name) ∧
        (x.node.isDir = true → x.remove u .ociRemoval (some name) pn = .ok (x, false)) := by
      intro x hx
      have hxmem : x ∈ pre ++ c :: post := List.mem_append_left _ hx
      refine ⟨?_, ?_, ?_, ?_⟩
      · rintro ⟨-, -, hsome⟩
        exact absurd (Option.some.inj hsome).symm (hpre x hx)
      · rintro ⟨h, -⟩
        exact absurd h (by decide)
      · rintro ⟨h, -⟩
        exact absurd h (by decide)
      · intro _
        exact child_remove_skip _ _ _ (Tree.wfList_mem_tv hwfl hxmem) htv (Or.inl (by simp))
    have hloop := Tree.removeChildren_prefix pre hprefacts hfire
    have hout := Tree.remove_descend hg hro hloop
    rw [hout]
    rw [Tree.eraseChildAt, eraseFirstNamed_append hpre hcname]
  | cons n q' ih =>
    intro t p u w name pn hwf htv hchild
    obtain ⟨nd, cs⟩ := t
    have hnd : nd.target_vec = p := Tree.wfAt_tv hwf
    have hp : p ≠ [] := Tree.wfAt_ne_nil hwf
    have hplen : 1 ≤ p.length := List.length_pos.mpr hp
    have hndlen : nd.target_vec.length = p.length := by rw [hnd]
    have htplen : u.target_vec.length = p.length + q'.length + 2 := by
      rw [htv]
      simp
      omega
    have htv' : u.target_vec = p ++ ((n :: q') ++ [w]) := by
      rw [htv]
      simp
    have hg : ¬ (u.target_vec.length ≤ nd.target_vec.length ∨
        nd.target_vec.getD (nd.target_vec.length - 1) "" ≠
          u.target_vec.getD (nd.target_vec.length - 1) "") := by
      push_neg
      refine ⟨by omega, ?_⟩
      rw [hnd, htv', List.getD_append _ _ _ _ (by omega)]
    have hro : ¬ (nd.target_vec.length = 1 ∧
        (WhiteoutType.ociRemoval = .ociOpaque ∧ u.target_vec.length = 2 ∨
         WhiteoutType.ociRemoval = .overlayFsOpaque ∧ u.target_vec.length = 1)) := by
      rintro ⟨-, ⟨h, -⟩ | ⟨h, -⟩⟩ <;> exact absurd h (by decide)
    have hany : (cs.any fun c => decide (c.node.name = n)
        && (fun c => c.node.isDir && c.hasChildAt q' name) c) = true := by
      rw [Tree.hasChildAt] at hchild
      simpa [Bool.and_assoc] using hchild
    obtain ⟨pre, c, post, hsplit, hcname, hcP, hpre⟩ :=
      firstNamed_split (Tree.wfAt_nodup hwf) hany
    simp only [Bool.and_eq_true] at hcP
    have hwfl : Tree.wfList cs p = true := Tree.wfAt_children hwf
    subst hsplit
    have hcmem : c ∈ pre ++ c :: post :=
      List.mem_append_right _ (List.mem_cons_self _ _)
    have hcwf : c.wfAt (p ++ [c.node.name]) = true := Tree.wfList_mem hwfl hcmem
    rw [hcname] at hcwf
    have hctv2 : u.target_vec = ((p ++ [n]) ++ q') ++ [w] := by
      rw [htv]
      simp
    have hrec : c.remove u .ociRemoval (some name) pn =
        .ok (c.eraseChildAt q' name, true) :=
      ih c (p ++ [n]) u w name pn hcwf hctv2 hcP.2
    have hfire : Tree.removeChildren u .ociRemoval (some name) pn
        nd.target_vec.length u.target_vec.length (c :: post) =
        .ok (c.eraseChildAt q' name :: post, true) := by
      refine Tree.removeChildren_hit ?_ ?_ ?_ hcP.1 hrec
      · rintro ⟨hd, -, -⟩
        omega
      · rintro ⟨h, -⟩
        exact absurd h (by decide)
      · rintro ⟨h, -⟩
        exact absurd h (by decide)
    have hprefacts : ∀ x ∈ pre,
        ¬ (nd.target_vec.length = u.target_vec.length - 1 ∧
           WhiteoutType.isRemoval .ociRemoval = true ∧ some name = some x.node.name) ∧
        ¬ (WhiteoutType.ociRemoval = .ociOpaque ∧ 2 ≤ u.target_vec.length ∧
           nd.target_vec.length = u.target_vec.length - 2 ∧ pn = some x.node.name) ∧
        ¬ (WhiteoutType.ociRemoval = .overlayFsOpaque ∧
           nd.target_vec.length = u.target_vec.length - 1 ∧ u.name = x.node.name) ∧
        (x.node.isDir = true → x.remove u .ociRemoval (some name) pn = .ok (x, false)) := by
      intro x hx
      have hxmem : x ∈ pre ++ c :: post := List.mem_append_left _ hx
      refine ⟨?_, ?_, ?_, ?_⟩
      · rintro ⟨hd, -, -⟩
        omega
      · rintro ⟨h, -⟩
        exact absurd h (by decide)
      · rintro ⟨h, -⟩
        exact absurd h (by decide)
      · intro _
        refine child_remove_skip _ _ _ (Tree.wfList_mem_tv hwfl hxmem) htv' (Or.inr ?_)
        show x.node.name ≠ ((n :: q') ++ [w]).getD 0 ""
        simpa using hpre x hx
    have hloop := Tree.removeChildren_prefix pre hprefacts hfire
    have hout := Tree.remove_descend hg hro hloop
    rw [hout]
    rw [Tree.eraseChildAt,
      modifyFirstNamed_append (fun c => c.eraseChildAt q' name) hpre hcname]

/-- The parent name of a node at `l ++ [last]` when `l` is not the root. -/
theorem Node.parentName_eq {u : Node} {l : List String} {last : String}
    (h : u.target_vec = l ++ [last]) (hl : l ≠ []) (hroot : l ≠ ["/"]) :
    u.parentName = some (l.getLastD "") := by
  rw [Node.parentName, h, List.dropLast_concat]
  cases l with
  | nil => exact absurd rfl hl
  | cons a as =>
    show (if a :: as = ["/"] then none else some ((a :: as).getLastD ""))
      = some ((a :: as).getLastD "")
    rw [if_neg hroot]

/-- Marking a tree opaque at its own root. -/
theorem Tree.opaqueAt_nil (c : Tree) :
    c.opaqueAt [] = .mk { c.node with overlay := .upperOpaque } [] := by
  cases c
  rfl

/-- The unfolding of `Tree.substAt` on a path of length at least two. -/
theorem Tree.substAt_cons {nd : Node} {cs : List Tree} {n : String}
    {rest : List String} (s : Tree) (h : rest ≠ []) :
    (Tree.mk nd cs).substAt (n :: rest) s =
      .mk nd (modifyFirstNamed n (fun c => c.substAt rest s) cs) := by
  cases rest with
  | nil => exact absurd rfl h
  | cons b bs => rfl

/-- Walking lemma for OCI opaque markers below the root: on a well-formed
tree, the marker `.wh..wh..opq` located in the directory reached by
`q ++ [dname]` marks that directory opaque, drops its children, and reports
`true`. -/
theorem Tree.remove_ociOpaque_deep :
    ∀ (q : List String) (dname : String) (t : Tree) (p : List String) (u : Node)
      (o : Option String),
    t.wfAt p = true →
    u.target_vec = ((p ++ q) ++ [dname]) ++ [ociOpaqueName] →
    t.hasChildAt q dname = true →
    u.parentName = some dname →
    t.remove u .ociOpaque o u.parentName = .ok (t.opaqueAt (q ++ [dname]), true) := by
  intro q
  induction q with
  | nil =>
    intro dname t p u o hwf htv hchild hpn
    obtain ⟨nd, cs⟩ := t
    rw [List.append_nil] at htv
    have hnd : nd.target_vec = p := Tree.wfAt_tv hwf
    have hp : p ≠ [] := Tree.wfAt_ne_nil hwf
    have hplen : 1 ≤ p.length := List.length_pos.mpr hp
    have hndlen : nd.target_vec.length = p.length := by rw [hnd]
    have htv' : u.target_vec = p ++ [dname, ociOpaqueName] := by
      rw [htv]
      simp
    have htplen : u.target_vec.length = p.length + 2 := by
      rw [htv']
      simp
    have hg : ¬ (u.target_vec.length ≤ nd.target_vec.length ∨
        nd.target_vec.getD (nd.target_vec.length - 1) "" ≠
          u.target_vec.getD (nd.target_vec.length - 1) "") := by
      push_neg
      refine ⟨by omega, ?_⟩
      rw [hnd, htv', List.getD_append _ _ _ _ (by omega)]
    have hro : ¬ (nd.target_vec.length = 1 ∧
        (WhiteoutType.ociOpaque = .ociOpaque ∧ u.target_vec.length = 2 ∨
         WhiteoutType.ociOpaque = .overlayFsOpaque ∧ u.target_vec.length = 1)) := by
      rintro ⟨hd, ⟨-, hl⟩ | ⟨h, -⟩⟩
      · omega
      · exact absurd h (by decide)
    have hany : (cs.any fun c => decide (c.node.name = dname) && (fun _ => true) c)
        = true := by
      rw [Tree.hasChildAt] at hchild
      simpa using hchild
    obtain ⟨pre, c, post, hsplit, hcname, -, hpre⟩ :=
      firstNamed_split (Tree.wfAt_nodup hwf) hany
    have hwfl : Tree.wfList cs p = true := Tree.wfAt_children hwf
    subst hsplit
    have hfire : Tree.removeChildren u .ociOpaque o u.parentName
        nd.target_vec.length u.target_vec.length (c :: post) =
        .ok (.mk { c.node with overlay := .upperOpaque } [] :: post, true) := by
      refine Tree.removeChildren_ociOpaque ?_ ⟨rfl, by omega, by omega, by rw [hpn, hcname]⟩
      rintro ⟨-, hrm, -⟩
      exact absurd hrm (by decide)
    have hprefacts : ∀ x ∈ pre,
        ¬ (nd.target_vec.length = u.target_vec.length - 1 ∧
           WhiteoutType.isRemoval .ociOpaque = true ∧ o = some x.node.name) ∧
        ¬ (WhiteoutType.ociOpaque = .ociOpaque ∧ 2 ≤ u.target_vec.length ∧
           nd.target_vec.length = u.target_vec.length - 2 ∧
           u.parentName = some x.node.name) ∧
        ¬ (WhiteoutType.ociOpaque = .overlayFsOpaque ∧
           nd.target_vec.length = u.target_vec.length - 1 ∧ u.name = x.node.name) ∧
        (x.node.isDir = true → x.remove u .ociOpaque o u.parentName = .ok (x, false)) := by
      intro x hx
      have hxmem : x ∈ pre ++ c :: post := List.mem_append_left _ hx
      refine ⟨?_, ?_, ?_, ?_⟩
      · rintro ⟨-, hrm, -⟩
        exact absurd hrm (by decide)
      · rintro ⟨-, -, -, hsome⟩
        rw [hpn] at hsome
        exact absurd (Option.some.inj hsome) (fun he => hpre x hx he.symm)
      · rintro ⟨h, -⟩
        exact absurd h (by decide)
      · intro _
        refine child_remove_skip _ _ _ (Tree.wfList_mem_tv hwfl hxmem) htv' (Or.inr ?_)
        show x.node.name ≠ [dname, ociOpaqueName].getD 0 ""
        simpa using hpre x hx
    have hloop := Tree.removeChildren_prefix pre hprefacts hfire
    have hout := Tree.remove_descend hg hro hloop
    rw [hout]
    rw [show ([] : List String) ++ [dname] = [dname] from rfl, Tree.opaqueAt,
      modifyFirstNamed_append (fun c => c.opaqueAt []) hpre hcname]
    rw [Tree.opaqueAt_nil]
  | cons n q' ih =>
    intro dname t p u o hwf htv hchild hpn
    obtain ⟨nd, cs⟩ := t
    have hnd : nd.target_vec = p := Tree.wfAt_tv hwf
    have hp : p ≠ [] := Tree.wfAt_ne_nil hwf
    have hplen : 1 ≤ p.length := List.length_pos.mpr hp
    have hndlen : nd.target_vec.length = p.length := by rw [hnd]
    have htv' : u.target_vec = p ++ ((n :: q') ++ [dname, ociOpaqueName]) := by
      rw [htv]
      simp
    have htplen : u.target_vec.length = p.length + q'.length + 3 := by
      rw [htv']
      simp
      omega
    have hg : ¬ (u.target_vec.length ≤ nd.target_vec.length ∨
        nd.target_vec.getD (nd.target_vec.length - 1) "" ≠
          u.target_vec.getD (nd.target_vec.length - 1) "") := by
      push_neg
      refine ⟨by omega, ?_⟩
      rw [hnd, htv', List.getD_append _ _ _ _ (by omega)]
    have hro : ¬ (nd.target_vec.length = 1 ∧
        (WhiteoutType.ociOpaque = .ociOpaque ∧ u.target_vec.length = 2 ∨
         WhiteoutType.ociOpaque = .overlayFsOpaque ∧ u.target_vec.length = 1)) := by
      rintro ⟨hd, ⟨-, hl⟩ | ⟨h, -⟩⟩
      · omega
      · exact absurd h (by decide)
    have hany : (cs.any fun c => decide (c.node.name = n)
        && (fun c => c.node.isDir && c.hasChildAt q' dname) c) = true := by
      rw [Tree.hasChildAt] at hchild
      simpa [Bool.and_assoc] using hchild
    obtain ⟨pre, c, post, hsplit, hcname, hcP, hpre⟩ :=
      firstNamed_split (Tree.wfAt_nodup hwf) hany
    simp only [Bool.and_eq_true] at hcP
    have hwfl : Tree.wfList cs p = true := Tree.wfAt_children hwf
    subst hsplit
    have hcmem : c ∈ pre ++ c :: post :=
      List.mem_append_right _ (List.mem_cons_self _ _)
    have hcwf : c.wfAt (p ++ [c.node.name]) = true := Tree.wfList_mem hwfl hcmem
    rw [hcname] at hcwf
    have hctv2 : u.target_vec = (((p ++ [n]) ++ q') ++ [dname]) ++ [ociOpaqueName] := by
      rw [htv]
      simp
    have hrec : c.remove u .ociOpaque o u.parentName =
        .ok (c.opaqueAt (q' ++ [dname]), true) :=
      ih dname c (p ++ [n]) u o hcwf hctv2 hcP.2 hpn
    have hfire : Tree.removeChildren u .ociOpaque o u.parentName
        nd.target_vec.length u.target_vec.length (c :: post) =
        .ok (c.opaqueAt (q' ++ [dname]) :: post, true) := by
      refine Tree.removeChildren_hit ?_ ?_ ?_ hcP.1 hrec
      · rintro ⟨-, hrm, -⟩
        exact absurd hrm (by decide)
      · rintro ⟨-, -, hd, -⟩
        omega
      · rintro ⟨h, -⟩
        exact absurd h (by decide)
    have hprefacts : ∀ x ∈ pre,
        ¬ (nd.target_vec.length = u.target_vec.length - 1 ∧
           WhiteoutType.isRemoval .ociOpaque = true ∧ o = some x.node.name) ∧
        ¬ (WhiteoutType.ociOpaque = .ociOpaque ∧ 2 ≤ u.target_vec.length ∧
           nd.target_vec.length = u.target_vec.length - 2 ∧
           u.parentName = some x.node.name) ∧
        ¬ (WhiteoutType.ociOpaque = .overlayFsOpaque ∧
           nd.target_vec.length = u.target_vec.length - 1 ∧ u.name = x.node.name) ∧
        (x.node.isDir = true → x.remove u .ociOpaque o u.parentName = .ok (x, false)) := by
      intro x hx
      have hxmem : x ∈ pre ++ c :: post := List.mem_append_left _ hx
      refine ⟨?_, ?_, ?_, ?_⟩
      · rintro ⟨-, hrm, -⟩
        exact absurd hrm (by decide)
      · rintro ⟨-, -, hd, -⟩
        omega
      · rintro ⟨h, -⟩
        exact absurd h (by decide)
      · intro _
        refine child_remove_skip _ _ _ (Tree.wfList_mem_tv hwfl hxmem) htv' (Or.inr ?_)
        show x.node.name ≠ ((n :: q') ++ [dname, ociOpaqueName]).getD 0 ""
        simpa using hpre x hx
    have hloop := Tree.removeChildren_prefix pre hprefacts hfire
    have hout := Tree.remove_descend hg hro hloop
    rw [hout]
    rw [show (n :: q') ++ [dname] = n :: (q' ++ [dname]) from rfl, Tree.opaqueAt,
      modifyFirstNamed_append (fun c => c.opaqueAt (q' ++ [dname])) hpre hcname]

/-- Walking lemma for OverlayFS opaque directories below the root: on a
well-formed tree, removal with the OverlayFS-opaque whiteout type for an
upper directory at `q ++ [leaf]` marks the lower directory there opaque,
drops its children, and reports `true`. -/
theorem Tree.remove_ovlOpaque_deep :
    ∀ (q : List String) (leaf : String) (t : Tree) (p : List String) (u : Node)
      (o pn : Option String),
    t.wfAt p = true →
    u.target_vec = (p ++ q) ++ [leaf] →
    t.hasChildAt q leaf = true →
    t.remove u .overlayFsOpaque o pn = .ok (t.opaqueAt (q ++ [leaf]), true) := by
  intro q
  induction q with
  | nil =>
    intro leaf t p u o pn hwf htv hchild
    obtain ⟨nd, cs⟩ := t
    rw [List.append_nil] at htv
    have hnd : nd.target_vec = p := Tree.wfAt_tv hwf
    have hp : p ≠ [] := Tree.wfAt_ne_nil hwf
    have hplen : 1 ≤ p.length := List.length_pos.mpr hp
    have hndlen : nd.target_vec.length = p.length := by rw [hnd]
    have htplen : u.target_vec.length = p.length + 1 := by
      rw [htv]
      simp
    have huname : u.name = leaf := Node.name_of_tv htv
    have hg : ¬ (u.target_vec.length ≤ nd.target_vec.length ∨
        nd.target_vec.getD (nd.target_vec.length - 1) "" ≠
          u.target_vec.getD (nd.target_vec.length - 1) "") := by
      push_neg
      refine ⟨by omega, ?_⟩
      rw [hnd, htv, List.getD_append _ _ _ _ (by omega)]
    have hro : ¬ (nd.target_vec.length = 1 ∧
        (WhiteoutType.overlayFsOpaque = .ociOpaque ∧ u.target_vec.length = 2 ∨
         WhiteoutType.overlayFsOpaque = .overlayFsOpaque ∧ u.target_vec.length = 1)) := by
      rintro ⟨hd, ⟨h, -⟩ | ⟨-, hl⟩⟩
      · exact absurd h (by decide)
      · omega
    have hany : (cs.any fun c => decide (c.node.name = leaf) && (fun _ => true) c)
        = true := by
      rw [Tree.hasChildAt] at hchild
      simpa using hchild
    obtain ⟨pre, c, post, hsplit, hcname, -, hpre⟩ :=
      firstNamed_split (Tree.wfAt_nodup hwf) hany
    have hwfl : Tree.wfList cs p = true := Tree.wfAt_children hwf
    subst hsplit
    have hfire : Tree.removeChildren u .overlayFsOpaque o pn
        nd.target_vec.length u.target_vec.length (c :: post) =
        .ok (.mk { c.node with overlay := .upperOpaque } [] :: post, true) := by
      refine Tree.removeChildren_ovlOpaque ?_ ?_ ⟨rfl, by omega, by rw [huname, hcname]⟩
      · rintro ⟨-, hrm, -⟩
        exact absurd hrm (by decide)
      · rintro ⟨h, -⟩
        exact absurd h (by decide)
    have hprefacts : ∀ x ∈ pre,
        ¬ (nd.target_vec.length = u.target_vec.length - 1 ∧
           WhiteoutType.isRemoval .overlayFsOpaque = true ∧ o = some x.node.name) ∧
        ¬ (WhiteoutType.overlayFsOpaque = .ociOpaque ∧ 2 ≤ u.target_vec.length ∧
           nd.target_vec.length = u.target_vec.length - 2 ∧ pn = some x.node.name) ∧
        ¬ (WhiteoutType.overlayFsOpaque = .overlayFsOpaque ∧
           nd.target_vec.length = u.target_vec.length - 1 ∧ u.name = x.node.name) ∧
        (x.node.isDir = true → x.remove u .overlayFsOpaque o pn = .ok (x, false)) := by
      intro x hx
      have hxmem : x ∈ pre ++ c :: post := List.mem_append_left _ hx
      refine ⟨?_, ?_, ?_, ?_⟩
      · rintro ⟨-, hrm, -⟩
        exact absurd hrm (by decide)
      · rintro ⟨h, -⟩
        exact absurd h (by decide)
      · rintro ⟨-, -, hnm⟩
        rw [huname] at hnm
        exact hpre x hx hnm.symm
      · intro _
        exact child_remove_skip _ _ _ (Tree.wfList_mem_tv hwfl hxmem) htv
          (Or.inl (by simp))
    have hloop := Tree.removeChildren_prefix pre hprefacts hfire
    have hout := Tree.remove_descend hg hro hloop
    rw [hout]
    rw [show ([] : List String) ++ [leaf] = [leaf] from rfl, Tree.opaqueAt,
      modifyFirstNamed_append (fun c => c.opaqueAt []) hpre hcname]
    rw [Tree.opaqueAt_nil]
  | cons n q' ih =>
    intro leaf t p u o pn hwf htv hchild
    obtain ⟨nd, cs⟩ := t
    have hnd : nd.target_vec = p := Tree.wfAt_tv hwf
    have hp : p ≠ [] := Tree.wfAt_ne_nil hwf
    have hplen : 1 ≤ p.length := List.length_pos.mpr hp
    have hndlen : nd.target_vec.length = p.length := by rw [hnd]
    have htv' : u.target_vec = p ++ ((n :: q') ++ [leaf]) := by
      rw [htv]
      simp
    have htplen : u.target_vec.length = p.length + q'.length + 2 := by
      rw [htv']
      simp
      omega
    have hg : ¬ (u.target_vec.length ≤ nd.target_vec.length ∨
        nd.target_vec.getD (nd.target_vec.length - 1) "" ≠
          u.target_vec.getD (nd.target_vec.length - 1) "") := by
      push_neg
      refine ⟨by omega, ?_⟩
      rw [hnd, htv', List.getD_append _ _ _ _ (by omega)]
    have hro : ¬ (nd.target_vec.length = 1 ∧
        (WhiteoutType.overlayFsOpaque = .ociOpaque ∧ u.target_vec.length = 2 ∨
         WhiteoutType.overlayFsOpaque = .overlayFsOpaque ∧ u.target_vec.length = 1)) := by
      rintro ⟨hd, ⟨h, -⟩ | ⟨-, hl⟩⟩
      · exact absurd h (by decide)
      · omega
    have hany : (cs.any fun c => decide (c.node.name = n)
        && (fun c => c.node.isDir && c.hasChildAt q' leaf) c) = true := by
      rw [Tree.hasChildAt] at hchild
      simpa [Bool.and_assoc] using hchild
    obtain ⟨pre, c, post, hsplit, hcname, hcP, hpre⟩ :=
      firstNamed_split (Tree.wfAt_nodup hwf) hany
    simp only [Bool.and_eq_true] at hcP
    have hwfl : Tree.wfList cs p = true := Tree.wfAt_children hwf
    subst hsplit
    have hcmem : c ∈ pre ++ c :: post :=
      List.mem_append_right _ (List.mem_cons_self _ _)
    have hcwf : c.wfAt (p ++ [c.node.name]) = true := Tree.wfList_mem hwfl hcmem
    rw [hcname] at hcwf
    have hctv2 : u.target_vec = ((p ++ [n]) ++ q') ++ [leaf] := by
      rw [htv]
      simp
    have hrec : c.remove u .overlayFsOpaque o pn =
        .ok (c.opaqueAt (q' ++ [leaf]), true) :=
      ih leaf c (p ++ [n]) u o pn hcwf hctv2 hcP.2
    have hfire : Tree.removeChildren u .overlayFsOpaque o pn
        nd.target_vec.length u.target_vec.length (c :: post) =
        .ok (c.opaqueAt (q' ++ [leaf]) :: post, true) := by
      refine Tree.removeChildren_hit ?_ ?_ ?_ hcP.1 hrec
      · rintro ⟨-, hrm, -⟩
        exact absurd hrm (by decide)
      · rintro ⟨h, -⟩
        exact absurd h (by decide)
      · rintro ⟨-, hd, -⟩
        omega
    have hprefacts : ∀ x ∈ pre,
        ¬ (nd.target_vec.length = u.target_vec.length - 1 ∧
           WhiteoutType.isRemoval .overlayFsOpaque = true ∧ o = some x.node.name) ∧
        ¬ (WhiteoutType.overlayFsOpaque = .ociOpaque ∧ 2 ≤ u.target_vec.length ∧
           nd.target_vec.length = u.target_vec.length - 2 ∧ pn = some x.node.name) ∧
        ¬ (WhiteoutType.overlayFsOpaque = .overlayFsOpaque ∧
           nd.target_vec.length = u.target_vec.length - 1 ∧ u.name = x.node.name) ∧
        (x.node.isDir = true → x.remove u .overlayFsOpaque o pn = .ok (x, false)) := by
      intro x hx
      have hxmem : x ∈ pre ++ c :: post := List.mem_append_left _ hx
      refine ⟨?_, ?_, ?_, ?_⟩
      · rintro ⟨-, hrm, -⟩
        exact absurd hrm (by decide)
      · rintro ⟨h, -⟩
        exact absurd h (by decide)
      · rintro ⟨-, hd, -⟩
        omega
      · intro _
        refine child_remove_skip _ _ _ (Tree.wfList_mem_tv hwfl hxmem) htv' (Or.inr ?_)
        show x.node.name ≠ ((n :: q') ++ [leaf]).getD 0 ""
        simpa using hpre x hx
    have hloop := Tree.removeChildren_prefix pre hprefacts hfire
    have hout := Tree.remove_descend hg hro hloop
    rw [hout]
    rw [show (n :: q') ++ [leaf] = n :: (q' ++ [leaf]) from rfl, Tree.opaqueAt,
      modifyFirstNamed_append (fun c => c.opaqueAt (q' ++ [leaf])) hpre hcname]

/-- The unfolding of `Tree.substAt` on a single-component path. -/
theorem Tree.substAt_single {nd : Node} {cs : List Tree} {n : String} (s : Tree) :
    (Tree.mk nd cs).substAt [n] s = .mk nd (modifyFirstNamed n (fun _ => s) cs) :=
  rfl

/-- Walking lemma for the replay step: after the OverlayFS-opaque removal has
marked the lower directory at `q ++ [leaf]` opaque, re-applying the upper
directory node substitutes it — node replaced, children gone — and reports
`true`. -/
theorem Tree.applyBody_opaque_deep :
    ∀ (q : List String) (leaf : String) (t : Tree) (p : List String) (u : Node)
      (hw : Bool) (ws : WhiteoutSpec),
    t.wfAt p = true →
    u.target_vec = (p ++ q) ++ [leaf] →
    t.hasChildAt q leaf = true →
    (t.opaqueAt (q ++ [leaf])).applyBody u hw ws =
      .ok (t.substAt (q ++ [leaf]) (.mk { u with overlay := .upperModification } []),
        true) := by
  intro q
  induction q with
  | nil =>
    intro leaf t p u hw ws hwf htv hchild
    obtain ⟨nd, cs⟩ := t
    rw [List.append_nil] at htv
    have hnd : nd.target_vec = p := Tree.wfAt_tv hwf
    have hp : p ≠ [] := Tree.wfAt_ne_nil hwf
    have hplen : 1 ≤ p.length := List.length_pos.mpr hp
    have hndlen : nd.target_vec.length = p.length := by rw [hnd]
    have htplen : u.target_vec.length = p.length + 1 := by
      rw [htv]
      simp
    have hgetD : u.target_vec.getD nd.target_vec.length "" = leaf := by
      rw [htv, hndlen]
      exact getD_append_length p leaf ""
    have hany : (cs.any fun c => decide (c.node.name = leaf) && (fun _ => true) c)
        = true := by
      rw [Tree.hasChildAt] at hchild
      simpa using hchild
    obtain ⟨pre, c, post, hsplit, hcname, -, hpre⟩ :=
      firstNamed_split (Tree.wfAt_nodup hwf) hany
    subst hsplit
    have hopq : (Tree.mk nd (pre ++ c :: post)).opaqueAt ([] ++ [leaf]) =
        .mk nd (pre ++ Tree.mk { c.node with overlay := .upperOpaque } [] :: post) := by
      rw [show ([] : List String) ++ [leaf] = [leaf] from rfl, Tree.opaqueAt,
        modifyFirstNamed_append (fun c => c.opaqueAt []) hpre hcname]
      rw [Tree.opaqueAt_nil]
    rw [hopq]
    have hfire : Tree.applyChildren u hw ws nd.target_vec.length
        (Tree.mk { c.node with overlay := .upperOpaque } [] :: post) =
        .ok (Tree.mk { u with overlay := .upperModification } [] :: post, true) :=
      Tree.applyChildren_modify (by rw [hgetD]; exact hcname.symm) (by omega)
    have hloop := Tree.applyChildren_prefix pre
      (fun x hx => by rw [hgetD]; exact fun he => hpre x hx he.symm) hfire
    rw [Tree.applyBody_found (Node.pathIsRoot_false (by omega)) (by omega) hloop]
    rw [show ([] : List String) ++ [leaf] = [leaf] from rfl, Tree.substAt_single,
      modifyFirstNamed_append _ hpre hcname]
  | cons n q' ih =>
    intro leaf t p u hw ws hwf htv hchild
    obtain ⟨nd, cs⟩ := t
    have hnd : nd.target_vec = p := Tree.wfAt_tv hwf
    have hp : p ≠ [] := Tree.wfAt_ne_nil hwf
    have hplen : 1 ≤ p.length := List.length_pos.mpr hp
    have hndlen : nd.target_vec.length = p.length := by rw [hnd]
    have htv' : u.target_vec = p ++ ((n :: q') ++ [leaf]) := by
      rw [htv]
      simp
    have htplen : u.target_vec.length = p.length + q'.length + 2 := by
      rw [htv']
      simp
      omega
    have hgetD : u.target_vec.getD nd.target_vec.length "" = n := by
      rw [htv', hndlen, List.getD_append_right _ _ _ _ (le_refl _), Nat.sub_self]
      rfl
    have hany : (cs.any fun c => decide (c.node.name = n)
        && (fun c => c.node.isDir && c.hasChildAt q' leaf) c) = true := by
      rw [Tree.hasChildAt] at hchild
      simpa [Bool.and_assoc] using hchild
    obtain ⟨pre, c, post, hsplit, hcname, hcP, hpre⟩ :=
      firstNamed_split (Tree.wfAt_nodup hwf) hany
    simp only [Bool.and_eq_true] at hcP
    have hwfl : Tree.wfList cs p = true := Tree.wfAt_children hwf
    subst hsplit
    have hcmem : c ∈ pre ++ c :: post :=
      List.mem_append_right _ (List.mem_cons_self _ _)
    have hcwf : c.wfAt (p ++ [c.node.name]) = true := Tree.wfList_mem hwfl hcmem
    rw [hcname] at hcwf
    have hctv2 : u.target_vec = ((p ++ [n]) ++ q') ++ [leaf] := by
      rw [htv]
      simp
    have hrec := ih leaf c (p ++ [n]) u hw ws hcwf hctv2 hcP.2
    have hopq : (Tree.mk nd (pre ++ c :: post)).opaqueAt ((n :: q') ++ [leaf]) =
        .mk nd (pre ++ c.opaqueAt (q' ++ [leaf]) :: post) := by
      rw [show (n :: q') ++ [leaf] = n :: (q' ++ [leaf]) from rfl, Tree.opaqueAt,
        modifyFirstNamed_append (fun c => c.opaqueAt (q' ++ [leaf])) hpre hcname]
    rw [hopq]
    have hfire : Tree.applyChildren u hw ws nd.target_vec.length
        (c.opaqueAt (q' ++ [leaf]) :: post) =
        .ok (c.substAt (q' ++ [leaf])
          (.mk { u with overlay := .upperModification } []) :: post, true) := by
      refine Tree.applyChildren_hit ?_ (by omega) ?_ hrec
      · rw [hgetD, Tree.opaqueAt_name]
        exact hcname.symm
      · rw [Tree.opaqueAt_isDir]
        exact hcP.1
    have hloop := Tree.applyChildren_prefix pre
      (fun x hx => by rw [hgetD]; exact fun he => hpre x hx he.symm) hfire
    rw [Tree.applyBody_found (Node.pathIsRoot_false (by omega)) (by omega) hloop]
    rw [show (n :: q') ++ [leaf] = n :: (q' ++ [leaf]) from rfl,
      Tree.substAt_cons _ (by simp), modifyFirstNamed_append _ hpre hcname]

/-! Negative walking lemmas: when the target path cannot be followed down the
tree, no branch of `Tree::apply` or `Tree::remove` fires and the tree comes
back unchanged with `false`. -/

/-- Whether following the child names `q` from the root of `t` reaches a node,
every step entering a directory child with the wanted name.  Both `Tree::apply`
and `Tree::remove` descend only through directory children whose names match
the target path, so they can only act at or below the node reached this way. -/
def Tree.reachesDir : Tree → List String → Bool
  | _, [] => true
  | t, n :: rest =>
    t.children.any fun c => c.node.name = n && c.node.isDir && c.reachesDir rest

/-- When no branch of the `Tree::remove` child loop fires on any child and
every directory child's recursive removal finds nothing, the loop returns the
children unchanged with `false`. -/
theorem Tree.removeChildren_none {target : Node} {wt : WhiteoutType}
    {o pn : Option String} {depth tplen : Nat}
    (cs : List Tree)
    (h : ∀ x ∈ cs,
      ¬ (depth = tplen - 1 ∧ wt.isRemoval = true ∧ o = some x.node.name) ∧
      ¬ (wt = .ociOpaque ∧ 2 ≤ tplen ∧ depth = tplen - 2 ∧ pn = some x.node.name) ∧
      ¬ (wt = .overlayFsOpaque ∧ depth = tplen - 1 ∧ target.name = x.node.name) ∧
      (x.node.isDir = true → x.remove target wt o pn = .ok (x, false))) :
    Tree.removeChildren target wt o pn depth tplen cs = .ok (cs, false) := by
  have hbase : Tree.removeChildren target wt o pn depth tplen [] =
      .ok ([], false) := rfl
  have h2 := Tree.removeChildren_prefix cs h hbase
  simpa using h2

/-- When every child of the `Tree::apply` loop either has the wrong name, or
matches at a non-final depth and its recursive application finds nothing, the
loop returns the children unchanged with `false`. -/
theorem Tree.applyChildren_none {target : Node} {hw : Bool} {ws : WhiteoutSpec}
    {depth : Nat} :
    ∀ (cs : List Tree),
    (∀ x ∈ cs, target.target_vec.getD depth "" = x.node.name →
      ¬ depth = target.target_vec.length - 1 ∧
      (x.node.isDir = true → x.applyBody target hw ws = .ok (x, false))) →
    Tree.applyChildren target hw ws depth cs = .ok (cs, false) := by
  intro cs
  induction cs with
  | nil => intro _; rfl
  | cons x rest ih =>
    intro h
    have hrest := ih (fun y hy => h y (List.mem_cons_of_mem _ hy))
    by_cases hn : target.target_vec.getD depth "" = x.node.name
    · obtain ⟨hd, hrec⟩ := h x (List.mem_cons_self _ _) hn
      by_cases hdir : x.node.isDir = true
      · exact Tree.applyChildren_miss hn hd hdir (hrec hdir) hrest
      · exact Tree.applyChildren_nondir hn hd hdir hrest
    · exact Tree.applyChildren_skip hn hrest

/-- Negative walking lemma for the body of `Tree::apply`: when the parent
directory of the (non-root) target cannot be reached by its components `q`,
neither the modification nor the addition branch can fire anywhere and the
tree is returned unchanged with `false`. -/
theorem Tree.applyBody_noMatch :
    ∀ (q : List String) (leaf : String) (t : Tree) (p : List String) (u : Node)
      (hw : Bool) (ws : WhiteoutSpec),
    t.wfAt p = true →
    u.target_vec = (p ++ q) ++ [leaf] →
    t.reachesDir q = false →
    t.applyBody u hw ws = .ok (t, false) := by
  intro q
  induction q with
  | nil =>
    intro leaf t p u hw ws hwf htv hreach
    simp [Tree.reachesDir] at hreach
  | cons n q' ih =>
    intro leaf t p u hw ws hwf htv hreach
    obtain ⟨nd, cs⟩ := t
    have hnd : nd.target_vec = p := Tree.wfAt_tv hwf
    have hp : p ≠ [] := Tree.wfAt_ne_nil hwf
    have hplen : 1 ≤ p.length := List.length_pos.mpr hp
    have hndlen : nd.target_vec.length = p.length := by rw [hnd]
    have htplen : u.target_vec.length = p.length + q'.length + 2 := by
      rw [htv]
      simp
      omega
    have hwfl : Tree.wfList cs p = true := Tree.wfAt_children hwf
    have hgetD : u.target_vec.getD nd.target_vec.length "" = n := by
      rw [hndlen, htv,
        show (p ++ (n :: q')) ++ [leaf] = p ++ (n :: (q' ++ [leaf])) from by simp,
        List.getD_append_right _ _ _ _ (le_refl _), Nat.sub_self]
      rfl
    simp only [Tree.reachesDir, Tree.children] at hreach
    rw [List.any_eq_false] at hreach
    have hnone : Tree.applyChildren u hw ws nd.target_vec.length cs =
        .ok (cs, false) := by
      refine Tree.applyChildren_none cs ?_
      intro x hx hname
      refine ⟨by omega, ?_⟩
      intro hdir
      have hxn : x.node.name = n := hname.symm.trans hgetD
      have hxr : x.reachesDir q' = false := by
        cases hr : x.reachesDir q' with
        | false => rfl
        | true => exact absurd (by simp [hxn, hdir, hr]) (hreach x hx)
      have hxwf : x.wfAt (p ++ [n]) = true := by
        rw [← hxn]
        exact Tree.wfList_mem hwfl hx
      exact ih leaf x (p ++ [n]) u hw ws hxwf (by rw [htv]; simp) hxr
    rw [Tree.applyBody_notFound (Node.pathIsRoot_false (by omega)) (by omega) hnone]
    rw [if_neg (by rintro ⟨hd, -⟩; omega)]

/-- Negative walking lemma for removal whiteouts: when the victim `origin`
does not exist in the directory reached by the parent components `q`
(`hasChildAt` fails), no branch of `Tree::remove` fires and the tree is
returned unchanged with `false`.  `w` is the whiteout file's own name. -/
theorem Tree.remove_removal_noMatch :
    ∀ (q : List String) (w : String) (t : Tree) (p : List String) (u : Node)
      (wt : WhiteoutType) (origin : String) (pn : Option String),
    wt.isRemoval = true →
    t.wfAt p = true →
    u.target_vec = (p ++ q) ++ [w] →
    t.hasChildAt q origin = false →
    t.remove u wt (some origin) pn = .ok (t, false) := by
  intro q
  induction q with
  | nil =>
    intro w t p u wt origin pn hrm hwf htv hchild
    obtain ⟨nd, cs⟩ := t
    rw [List.append_nil] at htv
    have hnd : nd.target_vec = p := Tree.wfAt_tv hwf
    have hp : p ≠ [] := Tree.wfAt_ne_nil hwf
    have hplen : 1 ≤ p.length := List.length_pos.mpr hp
    have hndlen : nd.target_vec.length = p.length := by rw [hnd]
    have htplen : u.target_vec.length = p.length + 1 := by
      rw [htv]
      simp
    have hwfl : Tree.wfList cs p = true := Tree.wfAt_children hwf
    have hwt2 : ¬ wt = WhiteoutType.ociOpaque := by
      rintro rfl
      exact absurd hrm (by decide)
    have hwt3 : ¬ wt = WhiteoutType.overlayFsOpaque := by
      rintro rfl
      exact absurd hrm (by decide)
    have hg : ¬ (u.target_vec.length ≤ nd.target_vec.length ∨
        nd.target_vec.getD (nd.target_vec.length - 1) "" ≠
          u.target_vec.getD (nd.target_vec.length - 1) "") := by
      push_neg
      refine ⟨by omega, ?_⟩
      rw [hnd, htv, List.getD_append _ _ _ _ (by omega)]
    have hro : ¬ (nd.target_vec.length = 1 ∧
        (wt = .ociOpaque ∧ u.target_vec.length = 2 ∨
         wt = .overlayFsOpaque ∧ u.target_vec.length = 1)) := by
      rintro ⟨-, ⟨h, -⟩ | ⟨h, -⟩⟩
      · exact hwt2 h
      · exact hwt3 h
    simp only [Tree.hasChildAt, Tree.children] at hchild
    rw [List.any_eq_false] at hchild
    have hnone : Tree.removeChildren u wt (some origin) pn nd.target_vec.length
        u.target_vec.length cs = .ok (cs, false) := by
      refine Tree.removeChildren_none cs ?_
      intro x hx
      refine ⟨?_, ?_, ?_, ?_⟩
      · rintro ⟨-, -, hsome⟩
        have hxo : ¬ x.node.name = origin := by simpa using hchild x hx
        exact hxo (Option.some.inj hsome).symm
      · rintro ⟨h, -⟩
        exact hwt2 h
      · rintro ⟨h, -⟩
        exact hwt3 h
      · intro _
        exact child_remove_skip _ _ _ (Tree.wfList_mem_tv hwfl hx) htv
          (Or.inl (by simp))
    exact Tree.remove_descend hg hro hnone
  | cons n q' ih =>
    intro w t p u wt origin pn hrm hwf htv hchild
    obtain ⟨nd, cs⟩ := t
    have hnd : nd.target_vec = p := Tree.wfAt_tv hwf
    have hp : p ≠ [] := Tree.wfAt_ne_nil hwf
    have hplen : 1 ≤ p.length := List.length_pos.mpr hp
    have hndlen : nd.target_vec.length = p.length := by rw [hnd]
    have htplen : u.target_vec.length = p.length + q'.length + 2 := by
      rw [htv]
      simp
      omega
    have htv' : u.target_vec = p ++ ((n :: q') ++ [w]) := by
      rw [htv]
      simp
    have hwfl : Tree.wfList cs p = true := Tree.wfAt_children hwf
    have hwt2 : ¬ wt = WhiteoutType.ociOpaque := by
      rintro rfl
      exact absurd hrm (by decide)
    have hwt3 : ¬ wt = WhiteoutType.overlayFsOpaque := by
      rintro rfl
      exact absurd hrm (by decide)
    have hg : ¬ (u.target_vec.length ≤ nd.target_vec.length ∨
        nd.target_vec.getD (nd.target_vec.length - 1) "" ≠
          u.target_vec.getD (nd.target_vec.length - 1) "") := by
      push_neg
      refine ⟨by omega, ?_⟩
      rw [hnd, htv', List.getD_append _ _ _ _ (by omega)]
    have hro : ¬ (nd.target_vec.length = 1 ∧
        (wt = .ociOpaque ∧ u.target_vec.length = 2 ∨
         wt = .overlayFsOpaque ∧ u.target_vec.length = 1)) := by
      rintro ⟨-, ⟨h, -⟩ | ⟨h, -⟩⟩
      · exact hwt2 h
      · exact hwt3 h
    simp only [Tree.hasChildAt, Tree.children] at hchild
    rw [List.any_eq_false] at hchild
    have hnone : Tree.removeChildren u wt (some origin) pn nd.target_vec.length
        u.target_vec.length cs = .ok (cs, false) := by
      refine Tree.removeChildren_none cs ?_
      intro x hx
      refine ⟨?_, ?_, ?_, ?_⟩
      · rintro ⟨hd, -, -⟩
        omega
      · rintro ⟨h, -⟩
        exact hwt2 h
      · rintro ⟨h, -⟩
        exact hwt3 h
      · intro hdir
        by_cases hxn : x.node.name = n
        · have hxch : x.hasChildAt q' origin = false := by
            cases hc : x.hasChildAt q' origin with
            | false => rfl
            | true => exact absurd (by simp [hxn, hdir, hc]) (hchild x hx)
          have hxwf : x.wfAt (p ++ [n]) = true := by
            rw [← hxn]
            exact Tree.wfList_mem hwfl hx
          exact ih w x (p ++ [n]) u wt origin pn hrm hxwf (by rw [htv]; simp) hxch
        · exact child_remove_skip _ _ _ (Tree.wfList_mem_tv hwfl hx) htv'
            (Or.inr (by simpa using hxn))
    exact Tree.remove_descend hg hro hnone

/-- Negative walking lemma for OCI opaque markers: when the directory `dname`
the marker designates does not exist in the directory reached by `q`, no
branch of `Tree::remove` fires and the tree is returned unchanged with
`false`.  `w` is the marker's own name. -/
theorem Tree.remove_ociOpaque_noMatch :
    ∀ (q : List String) (dname w : String) (t : Tree) (p : List String)
      (u : Node) (o : Option String),
    t.wfAt p = true →
    u.target_vec = ((p ++ q) ++ [dname]) ++ [w] →
    t.hasChildAt q dname = false →
    t.remove u .ociOpaque o (some dname) = .ok (t, false) := by
  intro q
  induction q with
  | nil =>
    intro dname w t p u o hwf htv hchild
    obtain ⟨nd, cs⟩ := t
    rw [List.append_nil] at htv
    have hnd : nd.target_vec = p := Tree.wfAt_tv hwf
    have hp : p ≠ [] := Tree.wfAt_ne_nil hwf
    have hplen : 1 ≤ p.length := List.length_pos.mpr hp
    have hndlen : nd.target_vec.length = p.length := by rw [hnd]
    have htplen : u.target_vec.length = p.length + 2 := by
      rw [htv]
      simp
    have htv'' : u.target_vec = p ++ [dname, w] := by
      rw [htv]
      simp
    have hwfl : Tree.wfList cs p = true := Tree.wfAt_children hwf
    have hg : ¬ (u.target_vec.length ≤ nd.target_vec.length ∨
        nd.target_vec.getD (nd.target_vec.length - 1) "" ≠
          u.target_vec.getD (nd.target_vec.length - 1) "") := by
      push_neg
      refine ⟨by omega, ?_⟩
      rw [hnd, htv'', List.getD_append _ _ _ _ (by omega)]
    have hro : ¬ (nd.target_vec.length = 1 ∧
        (WhiteoutType.ociOpaque = .ociOpaque ∧ u.target_vec.length = 2 ∨
         WhiteoutType.ociOpaque = .overlayFsOpaque ∧ u.target_vec.length = 1)) := by
      rintro ⟨hd1, ⟨-, h2⟩ | ⟨h3, -⟩⟩
      · omega
      · exact absurd h3 (by decide)
    simp only [Tree.hasChildAt, Tree.children] at hchild
    rw [List.any_eq_false] at hchild
    have hnone : Tree.removeChildren u .ociOpaque o (some dname)
        nd.target_vec.length u.target_vec.length cs = .ok (cs, false) := by
      refine Tree.removeChildren_none cs ?_
      intro x hx
      refine ⟨?_, ?_, ?_, ?_⟩
      · rintro ⟨-, hrm, -⟩
        exact absurd hrm (by decide)
      · rintro ⟨-, -, -, hsome⟩
        have hxo : ¬ x.node.name = dname := by simpa using hchild x hx
        exact hxo (Option.some.inj hsome).symm
      · rintro ⟨h, -⟩
        exact absurd h (by decide)
      · intro _
        refine child_remove_skip _ _ _ (Tree.wfList_mem_tv hwfl hx) htv''
          (Or.inr ?_)
        show ¬ x.node.name = ([dname, w]).getD 0 ""
        simpa using hchild x hx
    exact Tree.remove_descend hg hro hnone
  | cons n q' ih =>
    intro dname w t p u o hwf htv hchild
    obtain ⟨nd, cs⟩ := t
    have hnd : nd.target_vec = p := Tree.wfAt_tv hwf
    have hp : p ≠ [] := Tree.wfAt_ne_nil hwf
    have hplen : 1 ≤ p.length := List.length_pos.mpr hp
    have hndlen : nd.target_vec.length = p.length := by rw [hnd]
    have htplen : u.target_vec.length = p.length + q'.length + 3 := by
      rw [htv]
      simp
      omega
    have htv' : u.target_vec = p ++ (n :: (q' ++ [dname, w])) := by
      rw [htv]
      simp
    have hwfl : Tree.wfList cs p = true := Tree.wfAt_children hwf
    have hg : ¬ (u.target_vec.length ≤ nd.target_vec.length ∨
        nd.target_vec.getD (nd.target_vec.length - 1) "" ≠
          u.target_vec.getD (nd.target_vec.length - 1) "") := by
      push_neg
      refine ⟨by omega, ?_⟩
      rw [hnd, htv', List.getD_append _ _ _ _ (by omega)]
    have hro : ¬ (nd.target_vec.length = 1 ∧
        (WhiteoutType.ociOpaque = .ociOpaque ∧ u.target_vec.length = 2 ∨
         WhiteoutType.ociOpaque = .overlayFsOpaque ∧ u.target_vec.length = 1)) := by
      rintro ⟨hd1, ⟨-, h2⟩ | ⟨h3, -⟩⟩
      · omega
      · exact absurd h3 (by decide)
    simp only [Tree.hasChildAt, Tree.children] at hchild
    rw [List.any_eq_false] at hchild
    have hnone : Tree.removeChildren u .ociOpaque o (some dname)
        nd.target_vec.length u.target_vec.length cs = .ok (cs, false) := by
      refine Tree.removeChildren_none cs ?_
      intro x hx
      refine ⟨?_, ?_, ?_, ?_⟩
      · rintro ⟨-, hrm, -⟩
        exact absurd hrm (by decide)
      · rintro ⟨-, -, hd, -⟩
        omega
      · rintro ⟨h, -⟩
        exact absurd h (by decide)
      · intro hdir
        by_cases hxn : x.node.name = n
        · have hxch : x.hasChildAt q' dname = false := by
            cases hc : x.hasChildAt q' dname with
            | false => rfl
            | true => exact absurd (by simp [hxn, hdir, hc]) (hchild x hx)
          have hxwf : x.wfAt (p ++ [n]) = true := by
            rw [← hxn]
            exact Tree.wfList_mem hwfl hx
          exact ih dname w x (p ++ [n]) u o hxwf (by rw [htv]; simp) hxch
        · exact child_remove_skip _ _ _ (Tree.wfList_mem_tv hwfl hx) htv'
            (Or.inr (by simpa using hxn))
    exact Tree.remove_descend hg hro hnone

/-- Negative walking lemma for the remove pass of OverlayFS opaque
directives: when the parent directory of the opaque target cannot be reached
by its components `q`, no branch of `Tree::remove` fires and the tree is
returned unchanged with `false`. -/
theorem Tree.remove_ovlOpaque_noMatch :
    ∀ (q : List String) (leaf : String) (t : Tree) (p : List String) (u : Node)
      (o pn : Option String),
    t.wfAt p = true →
    u.target_vec = (p ++ q) ++ [leaf] →
    t.reachesDir q = false →
    t.remove u .overlayFsOpaque o pn = .ok (t, false) := by
  intro q
  induction q with
  | nil =>
    intro leaf t p u o pn hwf htv hreach
    simp [Tree.reachesDir] at hreach
  | cons n q' ih =>
    intro leaf t p u o pn hwf htv hreach
    obtain ⟨nd, cs⟩ := t
    have hnd : nd.target_vec = p := Tree.wfAt_tv hwf
    have hp : p ≠ [] := Tree.wfAt_ne_nil hwf
    have hplen : 1 ≤ p.length := List.length_pos.mpr hp
    have hndlen : nd.target_vec.length = p.length := by rw [hnd]
    have htplen : u.target_vec.length = p.length + q'.length + 2 := by
      rw [htv]
      simp
      omega
    have htv' : u.target_vec = p ++ ((n :: q') ++ [leaf]) := by
      rw [htv]
      simp
    have hwfl : Tree.wfList cs p = true := Tree.wfAt_children hwf
    have hg : ¬ (u.target_vec.length ≤ nd.target_vec.length ∨
        nd.target_vec.getD (nd.target_vec.length - 1) "" ≠
          u.target_vec.getD (nd.target_vec.length - 1) "") := by
      push_neg
      refine ⟨by omega, ?_⟩
      rw [hnd, htv', List.getD_append _ _ _ _ (by omega)]
    have hro : ¬ (nd.target_vec.length = 1 ∧
        (WhiteoutType.overlayFsOpaque = .ociOpaque ∧ u.target_vec.length = 2 ∨
         WhiteoutType.overlayFsOpaque = .overlayFsOpaque
           ∧ u.target_vec.length = 1)) := by
      rintro ⟨hd1, ⟨h2, -⟩ | ⟨-, h3⟩⟩
      · exact absurd h2 (by decide)
      · omega
    simp only [Tree.reachesDir, Tree.children] at hreach
    rw [List.any_eq_false] at hreach
    have hnone : Tree.removeChildren u .overlayFsOpaque o pn
        nd.target_vec.length u.target_vec.length cs = .ok (cs, false) := by
      refine Tree.removeChildren_none cs ?_
      intro x hx
      refine ⟨?_, ?_, ?_, ?_⟩
      · rintro ⟨-, hrm, -⟩
        exact absurd hrm (by decide)
      · rintro ⟨h, -⟩
        exact absurd h (by decide)
      · rintro ⟨-, hd, -⟩
        omega
      · intro hdir
        by_cases hxn : x.node.name = n
        · have hxr : x.reachesDir q' = false := by
            cases hr : x.reachesDir q' with
            | false => rfl
            | true => exact absurd (by simp [hxn, hdir, hr]) (hreach x hx)
          have hxwf : x.wfAt (p ++ [n]) = true := by
            rw [← hxn]
            exact Tree.wfList_mem hwfl hx
          exact ih leaf x (p ++ [n]) u o pn hxwf (by rw [htv]; simp) hxr
        · exact child_remove_skip _ _ _ (Tree.wfList_mem_tv hwfl hx) htv'
            (Or.inr (by simpa using hxn))
    exact Tree.remove_descend hg hro hnone

/-- "The target path matches no position of the tree", for a target whose
path splits as `"/" :: rel ++ [leaf]` (so `rel` names the parent components
and `leaf` is the node's own name), by the whiteout classification the target
receives.  A plain node — and the replay pass of an OverlayFS opaque
directory — can only act once the walk reaches the target's parent directory;
a removal whiteout only acts when its victim exists in that directory; the
OCI opaque marker only acts when the directory it designates exists one level
up.  A root target always matches the root, and so does an OCI opaque marker
directly under the root (it marks the root directory itself): no condition is
stated for them. -/
def Tree.noPositionCond (t : Tree) (u : Node) (rel : List String) :
    Option WhiteoutType → Prop
  | none => t.reachesDir rel = false
  | some .ociRemoval =>
      t.hasChildAt rel (String.mk (u.name.data.drop 4)) = false
  | some .overlayFsRemoval => t.hasChildAt rel u.name = false
  | some .ociOpaque =>
      rel ≠ [] ∧ t.hasChildAt rel.dropLast (rel.getLastD "") = false
  | some .overlayFsOpaque => t.reachesDir rel = false

/-! The claims. -/

/-- C1: for every well-formed lower tree and every upper node that is an OCI
whiteout file named `.wh.<name>` (a regular file, not the opaque marker)
located in the directory reached by `q`, `Tree::apply` with whiteout handling
enabled and the oci whiteout spec removes that directory's child named
`<name>` and returns `true`; the resulting tree is the old tree with exactly
that child erased, so the whiteout node itself is never inserted. -/
theorem c1_oci_whiteout_removes_child
    (t : Tree) (u : Node) (q : List String) (name : String)
    (hwf : t.wf = true)
    (hreg : u.ftype = FType.reg)
    (htv : u.target_vec = (["/"] ++ q) ++ [".wh." ++ name])
    (hno : (".wh." ++ name : String) ≠ ociOpaqueName)
    (hchild : t.hasChildAt q name = true) :
    t.apply u true .oci = .ok (t.eraseChildAt q name, true) := by
  obtain ⟨ndata⟩ := name
  have huname : u.name = ".wh." ++ String.mk ndata := Node.name_of_tv htv
  have hwt : u.whiteoutType .oci = some .ociRemoval := by
    rw [Node.whiteoutType, huname, if_pos hreg, if_neg hno]
    rfl
  have horig : u.originName .ociRemoval = some (String.mk ndata) := by
    rw [Node.originName, huname]
    rfl
  rw [Tree.apply_whiteout hwt (by decide), horig]
  rw [Tree.wf] at hwf
  exact Tree.remove_removal_deep q t ["/"] u (".wh." ++ String.mk ndata)
    (String.mk ndata) u.parentName hwf htv hchild

/-- C2: for every well-formed lower tree containing a directory D reached by
`rel`, applying the OCI opaque marker `.wh..wh..opq` located in D sets D's
overlay status to `UpperOpaque`, removes all of D's children, and returns
`true`; this holds also when D is the root (`rel = []`). -/
theorem c2_oci_opaque_marks_directory
    (t : Tree) (u : Node) (rel : List String)
    (hwf : t.wf = true)
    (hreg : u.ftype = FType.reg)
    (htv : u.target_vec = (["/"] ++ rel) ++ [ociOpaqueName])
    (hpath : rel = [] ∨
      ∃ q dname, rel = q ++ [dname] ∧ t.hasChildAt q dname = true) :
    t.apply u true .oci = .ok (t.opaqueAt rel, true) := by
  have huname : u.name = ociOpaqueName := Node.name_of_tv htv
  have hwt : u.whiteoutType .oci = some .ociOpaque := by
    rw [Node.whiteoutType, huname, if_pos hreg, if_pos rfl]
  rw [Tree.apply_whiteout hwt (by decide)]
  rw [Tree.wf] at hwf
  rcases hpath with hrel | ⟨q, dname, hrel, hchild⟩
  · subst hrel
    obtain ⟨nd, cs⟩ := t
    have hnd : nd.target_vec = ["/"] := Tree.wfAt_tv hwf
    rw [List.append_nil] at htv
    have hg : ¬ (u.target_vec.length ≤ nd.target_vec.length ∨
        nd.target_vec.getD (nd.target_vec.length - 1) "" ≠
          u.target_vec.getD (nd.target_vec.length - 1) "") := by
      push_neg
      rw [hnd, htv]
      exact ⟨by simp, rfl⟩
    have hout : (Tree.mk nd cs).remove u .ociOpaque (u.originName .ociOpaque)
        u.parentName = .ok (.mk { nd with overlay := .upperOpaque } [], true) :=
      Tree.remove_rootOpaque (u.originName .ociOpaque) u.parentName hg
        ⟨by rw [hnd]; rfl, Or.inl ⟨rfl, by rw [htv]; rfl⟩⟩
    rw [hout]
    rfl
  · subst hrel
    have hpn : u.parentName = some dname := by
      have h' : u.target_vec = (("/" :: q) ++ [dname]) ++ [ociOpaqueName] := by
        rw [htv]
        simp
      rw [Node.parentName_eq h' (by simp)
        (by intro he; have hlen := congrArg List.length he; simp at hlen)]
      show some ((("/" :: q) ++ [dname]).getLastD "") = some dname
      rw [List.getLastD_concat]
    exact Tree.remove_ociOpaque_deep q dname t ["/"] u
      (u.originName .ociOpaque) hwf (by rw [htv]; simp) hchild hpn

/-- C3: for every well-formed lower tree with a position reached by
`q ++ [leaf]` and every upper directory node there carrying the OverlayFS
opaque xattr, `Tree::apply` first removes via `Tree::remove` with the
OverlayFsOpaque whiteout type (marking the lower directory opaque and
emptying it, with result `true`), then re-invokes apply on the same target
with whiteout handling disabled, and the net effect substitutes the old
subtree by the new upper directory node (marked `UpperModification`, no
children). -/
theorem c3_overlayfs_opaque_replays
    (t : Tree) (u : Node) (q : List String) (leaf : String)
    (hwf : t.wf = true)
    (hdir : u.ftype = FType.dir)
    (hx : u.opaqueXattr = true)
    (htv : u.target_vec = (["/"] ++ q) ++ [leaf])
    (hpath : t.hasChildAt q leaf = true) :
    ∃ t1, t.remove u .overlayFsOpaque (u.originName .overlayFsOpaque) u.parentName
        = .ok (t1, true) ∧
      t.apply u true .overlayfs = t1.apply u false .overlayfs ∧
      t1.apply u false .overlayfs =
        .ok (t.substAt (q ++ [leaf])
          (.mk { u with overlay := .upperModification } []), true) := by
  have hwt : u.whiteoutType .overlayfs = some .overlayFsOpaque := by
    rw [Node.whiteoutType, if_neg, if_pos ⟨hdir, hx⟩]
    rintro ⟨h, -⟩
    rw [hdir] at h
    cases h
  rw [Tree.wf] at hwf
  have hr := Tree.remove_ovlOpaque_deep q leaf t ["/"] u
    (u.originName .overlayFsOpaque) u.parentName hwf htv hpath
  refine ⟨t.opaqueAt (q ++ [leaf]), hr, ?_, ?_⟩
  · rw [Tree.apply_whiteout_opaque hwt hr,
      apply_eq_applyBody _ u false .overlayfs (Or.inl rfl)]
  · rw [apply_eq_applyBody _ u false .overlayfs (Or.inl rfl)]
    exact Tree.applyBody_opaque_deep q leaf t ["/"] u false .overlayfs hwf htv hpath

/-- C4: for every non-whiteout upper node whose path depth equals the depth
of an existing child of the current tree node and whose leaf name matches
that child's name (the first such child), `Tree::apply` replaces that child's
node with a copy of the upper node marked `UpperModification`, leaves the
child's children list exactly unchanged, and returns `true`. -/
theorem c4_modification_replaces_node
    (nd : Node) (pre post : List Tree) (c : Tree) (u : Node) (hw : Bool)
    (ws : WhiteoutSpec)
    (hwt : u.whiteoutType ws = none)
    (hlen : u.target_vec.length = nd.target_vec.length + 1)
    (hne : nd.target_vec ≠ [])
    (hname : u.name = c.node.name)
    (hpre : ∀ x ∈ pre, x.node.name ≠ c.node.name) :
    (Tree.mk nd (pre ++ c :: post)).apply u hw ws =
      .ok (.mk nd (pre ++
        Tree.mk { u with overlay := .upperModification } c.children :: post),
        true) := by
  rw [Tree.apply_not_whiteout hw hwt]
  have hndpos : 1 ≤ nd.target_vec.length := List.length_pos.mpr hne
  have hulen : u.target_vec ≠ [] := by
    intro he
    rw [he] at hlen
    simp at hlen
  have hgetD : u.target_vec.getD nd.target_vec.length "" = u.name := by
    rw [Node.name, ← getD_length_sub_one _ hulen]
    have h' : u.target_vec.length - 1 = nd.target_vec.length := by omega
    rw [h']
  have hfire : Tree.applyChildren u hw ws nd.target_vec.length (c :: post) =
      .ok (Tree.mk { u with overlay := .upperModification } c.children :: post,
        true) :=
    Tree.applyChildren_modify (by rw [hgetD, hname]) (by omega)
  have hloop := Tree.applyChildren_prefix pre
    (fun x hx => by rw [hgetD, hname]; exact fun he => hpre x hx he.symm) hfire
  exact Tree.applyBody_found (Node.pathIsRoot_false (by omega)) (by omega) hloop

/-- C5 (amended): on every well-formed lower tree, `Tree::apply` never
returns an error; an upper node whose target path matches no position of the
tree (`noPositionCond`: its parent directory is not reachable, a removal
whiteout's victim does not exist, or the directory an OCI opaque marker
designates does not exist) yields `Ok(false)` with the tree unchanged; and
whenever the result is `false` the lower tree is left exactly as it was.
(Returning `true` need not change the tree: replacing a node by an identical
copy returns `true` while leaving the tree equal, see the counterexample.) -/
theorem c5_apply_ok_false_unchanged
    (t : Tree) (target : Node) (hw : Bool) (ws : WhiteoutSpec)
    (hwf : t.wf = true) :
    (∃ r, t.apply target hw ws = .ok r) ∧
    (∀ t1, t.apply target hw ws = .ok (t1, false) → t1 = t) ∧
    (∀ (rel : List String) (leaf : String),
      target.target_vec = "/" :: (rel ++ [leaf]) →
      t.noPositionCond target rel (if hw then target.whiteoutType ws else none) →
      t.apply target hw ws = .ok (t, false)) := by
  obtain ⟨hok, hfalse⟩ := Tree.apply_return_semantics t target hw ws hwf
  refine ⟨hok, hfalse, ?_⟩
  intro rel leaf htv hcond
  rw [Tree.wf] at hwf
  have htv' : target.target_vec = (["/"] ++ rel) ++ [leaf] := by
    rw [htv]
    simp
  cases hw with
  | false =>
    have hc : t.reachesDir rel = false := hcond
    rw [apply_eq_applyBody t target false ws (Or.inl rfl)]
    exact Tree.applyBody_noMatch rel leaf t ["/"] target false ws hwf htv' hc
  | true =>
    cases hwt : target.whiteoutType ws with
    | none =>
      rw [if_pos rfl, hwt] at hcond
      have hc : t.reachesDir rel = false := hcond
      rw [Tree.apply_not_whiteout true hwt]
      exact Tree.applyBody_noMatch rel leaf t ["/"] target true ws hwf htv' hc
    | some wt =>
      rw [if_pos rfl, hwt] at hcond
      cases wt with
      | ociRemoval =>
        have hc : t.hasChildAt rel (String.mk (target.name.data.drop 4))
            = false := hcond
        rw [Tree.apply_whiteout hwt (by decide)]
        exact Tree.remove_removal_noMatch rel leaf t ["/"] target .ociRemoval
          (String.mk (target.name.data.drop 4)) target.parentName (by decide)
          hwf htv' hc
      | overlayFsRemoval =>
        have hc : t.hasChildAt rel target.name = false := hcond
        rw [Tree.apply_whiteout hwt (by decide)]
        exact Tree.remove_removal_noMatch rel leaf t ["/"] target
          .overlayFsRemoval target.name target.parentName (by decide)
          hwf htv' hc
      | ociOpaque =>
        obtain ⟨hne, hc⟩ := hcond
        rcases List.eq_nil_or_concat rel with rfl | ⟨q, dname, hqd⟩
        · exact absurd rfl hne
        rw [List.concat_eq_append] at hqd
        subst hqd
        rw [List.dropLast_concat, List.getLastD_concat] at hc
        have htv2 : target.target_vec = ((["/"] ++ q) ++ [dname]) ++ [leaf] := by
          rw [htv]
          simp
        have hpn : target.parentName = some dname := by
          have hl : target.target_vec = (("/" :: q) ++ [dname]) ++ [leaf] := by
            rw [htv]
            simp
          have hroot2 : ("/" :: q) ++ [dname] ≠ ["/"] := by
            intro h
            have := congrArg List.length h
            simp at this
          have hpn' := Node.parentName_eq hl (by simp) hroot2
          rw [hpn', List.getLastD_concat]
        rw [Tree.apply_whiteout hwt (by decide), hpn]
        exact Tree.remove_ociOpaque_noMatch q dname leaf t ["/"] target
          (target.originName .ociOpaque) hwf htv2 hc
      | overlayFsOpaque =>
        have hc : t.reachesDir rel = false := hcond
        have hrm : t.remove target .overlayFsOpaque
            (target.originName .overlayFsOpaque) target.parentName
            = .ok (t, false) :=
          Tree.remove_ovlOpaque_noMatch rel leaf t ["/"] target
            (target.originName .overlayFsOpaque) target.parentName hwf htv' hc
        rw [Tree.apply_whiteout_opaque hwt hrm]
        exact Tree.applyBody_noMatch rel leaf t ["/"] target false ws hwf htv' hc

/-- C5 counterexample: `Tree::apply` can return `Ok(true)` while leaving the
tree unchanged, so `true` is not equivalent to "the tree changed".  The upper
node differs from the lower root only in its overlay status, and the root
modification branch replaces the root by an identical node. -/
theorem c5_counterexample_true_without_change :
    Tree.apply
      (.mk ⟨1, .dir, 0, false, .upperModification, ["/"]⟩ [])
      ⟨1, .dir, 0, false, .lower, ["/"]⟩ true .oci =
    .ok (.mk ⟨1, .dir, 0, false, .upperModification, ["/"]⟩ [], true) := rfl

/-- C6: for every nonzero power-of-two alignment, `validate_alignment`
returns the unaligned-data invalid-input error exactly when the alignment
does not divide the size or does not divide the cursor position; otherwise it
returns the size and the unchanged cursor. -/
theorem c6_validate_alignment_pow2 (cur size k : Nat) :
    validate_alignment cur size (2 ^ k) =
      (if 2 ^ k ∣ size ∧ 2 ^ k ∣ cur then .ok (size, cur)
       else .error "unaligned data") := by
  have hne : (2 : Nat) ^ k ≠ 0 := by positivity
  have hs : size &&& (2 ^ k - 1) = size % 2 ^ k := Nat.and_pow_two_sub_one_eq_mod size k
  have hc : cur &&& (2 ^ k - 1) = cur % 2 ^ k := Nat.and_pow_two_sub_one_eq_mod cur k
  have h1 : 2 ^ k ∣ size ↔ size % 2 ^ k = 0 := Nat.dvd_iff_mod_eq_zero
  have h2 : 2 ^ k ∣ cur ↔ cur % 2 ^ k = 0 := Nat.dvd_iff_mod_eq_zero
  unfold validate_alignment
  rw [if_pos hne, hs, hc]
  by_cases hd1 : 2 ^ k ∣ size <;> by_cases hd2 : 2 ^ k ∣ cur <;>
    simp [hd1, hd2, h1.mp, h2.mp, h1, h2] <;> tauto

/-- C7 (code bug): `Command::get_chunk_size` strips the two-character pattern
`0X` from the end of the argument (`trim_end_matches`), where handling an
uppercase `0X` prefix was clearly intended, so the non-hexadecimal argument
`10000X` is accepted as 0x1000 instead of failing. -/
theorem c7_chunk_size_accepts_bad_suffix :
    get_chunk_size (some "10000X") = .ok 0x1000 := rfl

/-- C8: for a stargz-index create invocation, the build parameters force the
compressor to gzip and the digester to sha256 no matter what was requested,
and the command fails exactly when the blob id trims to the empty string. -/
theorem c8_stargz_forces_gzip_sha256 (blob_id : String) (comp : Compressor)
    (dig : Digester) :
    (String.mk (trimChars blob_id.data) ≠ "" →
      stargz_params blob_id comp dig = .ok (Compressor.gzip, Digester.sha256)) ∧
    (String.mk (trimChars blob_id.data) = "" →
      stargz_params blob_id comp dig = .error "blob-id can't be empty") := by
  unfold stargz_params
  constructor
  · intro h
    rw [if_neg h]
  · intro h
    rw [if_pos h]

/-- C8 witness: a create invocation with blob id "abc" and other requested
algorithms receives gzip and sha256. -/
theorem c8_stargz_forces_gzip_sha256_witness :
    stargz_params "abc" Compressor.none Digester.blake3 =
      .ok (Compressor.gzip, Digester.sha256) :=
  (c8_stargz_forces_gzip_sha256 "abc" Compressor.none Digester.blake3).1 (by decide)

/-- C9 counterexample: with fs.file-max 100000 and a current limit of
1,000,000 the function returns `Ok 0`, not `Ok (min (100000 − 16384)
1000000)`, so the result is not always `min(file-max − 16384, 1000000)`. -/
theorem c9_rlimit_counterexample :
    ¬ (get_default_rlimit_nofile 100000 1000000 =
        .ok (min (100000 - 16384) 1000000)) := by
  intro h
  rw [show get_default_rlimit_nofile 100000 1000000 = .ok 0 from rfl] at h
  exact absurd (Except.ok.inj h) (by decide)

/-- C9 (amended): when fs.file-max is at least 2·16384, the computed target
is `min(file-max − 16384, 1_000_000)`; the function returns the target when
the current limit is below it and 0 (nothing to raise) otherwise; for a
smaller fs.file-max it fails with an invalid-arguments error. -/
theorem c9_rlimit_characterization (file_max curr : Nat) :
    (2 * 16384 ≤ file_max →
      get_default_rlimit_nofile file_max curr =
        .ok (if min (file_max - 16384) 1000000 ≤ curr then 0
             else min (file_max - 16384) 1000000)) ∧
    (file_max < 2 * 16384 →
      get_default_rlimit_nofile file_max curr =
        .error
          "The fs.file-max sysctl is too low to allow a reasonable number of open files.") := by
  unfold get_default_rlimit_nofile
  constructor
  · intro h
    rw [if_neg (by omega)]
  · intro h
    rw [if_pos h]

/-- C9 witness: fs.file-max 100000 and current limit 0 give the target
83616 = min(100000 − 16384, 1000000). -/
theorem c9_rlimit_characterization_witness :
    get_default_rlimit_nofile 100000 0 =
      .ok (if min (100000 - 16384) 1000000 ≤ 0 then 0
           else min (100000 - 16384) 1000000) :=
  (c9_rlimit_characterization 100000 0).1 (by decide)

/-- C10: a create invocation with `--fs-version 6` builds with
`aligned_chunk = true` whatever the `--aligned-chunk` flag says, while with
`--fs-version 5` it follows the flag. -/
theorem c10_v6_forces_aligned_chunk (flag : Bool) :
    get_fs_version (some "6") = .ok .v6 ∧
    aligned_chunk_choice .v6 flag = true ∧
    get_fs_version (some "5") = .ok .v5 ∧
    aligned_chunk_choice .v5 flag = flag := by
  refine ⟨rfl, rfl, rfl, ?_⟩
  cases flag <;> rfl

/-! Concrete sample data for the witnesses of the overlay claims: the lower
tree holds `/x` (a file) and `/d/y` (a file inside the directory `/d`). -/

/-- Sample lower-tree root node. -/
def sampleRoot : Node := ⟨1, .dir, 0, false, .lower, ["/"]⟩

/-- Sample lower-tree node `/x`. -/
def sampleX : Node := ⟨2, .reg, 0, false, .lower, ["/", "x"]⟩

/-- Sample lower-tree node `/d`. -/
def sampleD : Node := ⟨3, .dir, 0, false, .lower, ["/", "d"]⟩

/-- Sample lower-tree node `/d/y`. -/
def sampleY : Node := ⟨4, .reg, 0, false, .lower, ["/", "d", "y"]⟩

/-- Sample lower tree `{/x, /d/y}`. -/
def sampleLower : Tree :=
  .mk sampleRoot [.mk sampleX [], .mk sampleD [.mk sampleY []]]

/-- Sample upper whiteout file `/.wh.x`. -/
def sampleWhX : Node := ⟨10, .reg, 0, false, .upperAddition, ["/", ".wh.x"]⟩

/-- Sample upper opaque marker `/d/.wh..wh..opq`. -/
def sampleOpqD : Node :=
  ⟨11, .reg, 0, false, .upperAddition, ["/", "d", ".wh..wh..opq"]⟩

/-- Sample upper directory `/d` carrying `trusted.overlay.opaque=y`. -/
def sampleUpD : Node := ⟨12, .dir, 0, true, .upperAddition, ["/", "d"]⟩

/-- Sample plain upper directory `/d` (no whiteout semantics). -/
def sampleModD : Node := ⟨13, .dir, 0, false, .lower, ["/", "d"]⟩

/-- Sample upper node `/q/z` matching nothing in the lower tree. -/
def sampleNoM : Node := ⟨14, .reg, 0, false, .lower, ["/", "q", "z"]⟩

/-- Sample upper root directory carrying `trusted.overlay.opaque=y`. -/
def sampleRootOpq : Node := ⟨15, .dir, 0, true, .upperAddition, ["/"]⟩

/-- C3 counterexample: for an OverlayFS-opaque directive on the root
directory, `Tree::remove` removes nothing (it returns `false`, stopped by its
depth guard) and the re-application replaces only the root node while keeping
all lower children, so the new upper directory does not replace the old
subtree. -/
theorem c3_counterexample_root_opaque :
    sampleLower.remove sampleRootOpq .overlayFsOpaque
      (sampleRootOpq.originName .overlayFsOpaque) sampleRootOpq.parentName =
      .ok (sampleLower, false) ∧
    sampleLower.apply sampleRootOpq true .overlayfs =
      .ok (.mk { sampleRootOpq with overlay := .upperModification }
        [.mk sampleX [], .mk sampleD [.mk sampleY []]], true) :=
  ⟨rfl, rfl⟩

/-- C1 witness: applying `/.wh.x` to the sample tree deletes `/x`. -/
theorem c1_oci_whiteout_removes_child_witness :
    sampleLower.apply sampleWhX true .oci =
      .ok (sampleLower.eraseChildAt [] "x", true) :=
  c1_oci_whiteout_removes_child sampleLower sampleWhX [] "x"
    rfl rfl rfl (by decide) rfl

/-- C2 witness: applying `/d/.wh..wh..opq` to the sample tree opaques `/d`. -/
theorem c2_oci_opaque_marks_directory_witness :
    sampleLower.apply sampleOpqD true .oci =
      .ok (sampleLower.opaqueAt ["d"], true) :=
  c2_oci_opaque_marks_directory sampleLower sampleOpqD ["d"]
    rfl rfl rfl (Or.inr ⟨[], "d", rfl, rfl⟩)

/-- C3 witness: applying the opaque upper directory `/d` to the sample tree
removes and then replaces the `/d` subtree. -/
theorem c3_overlayfs_opaque_replays_witness :
    ∃ t1, sampleLower.remove sampleUpD .overlayFsOpaque
        (sampleUpD.originName .overlayFsOpaque) sampleUpD.parentName
        = .ok (t1, true) ∧
      sampleLower.apply sampleUpD true .overlayfs =
        t1.apply sampleUpD false .overlayfs ∧
      t1.apply sampleUpD false .overlayfs =
        .ok (sampleLower.substAt ["d"]
          (.mk { sampleUpD with overlay := .upperModification } []), true) :=
  c3_overlayfs_opaque_replays sampleLower sampleUpD [] "d" rfl rfl rfl rfl rfl

/-- C4 witness: applying the plain upper directory `/d` to the sample tree
replaces the node of `/d` and keeps its child `/d/y`. -/
theorem c4_modification_replaces_node_witness :
    (Tree.mk sampleRoot
        ([Tree.mk sampleX []] ++ Tree.mk sampleD [Tree.mk sampleY []] :: [])).apply
        sampleModD true .oci =
      .ok (.mk sampleRoot ([Tree.mk sampleX []] ++
        Tree.mk { sampleModD with overlay := .upperModification }
          (Tree.mk sampleD [Tree.mk sampleY []]).children :: []), true) :=
  c4_modification_replaces_node sampleRoot [Tree.mk sampleX []] []
    (Tree.mk sampleD [Tree.mk sampleY []]) sampleModD true .oci
    rfl rfl (by decide) rfl (by decide)

/-- C5 witness: the sample tree has no child named `q`, so the upper node
`/q/z` matches no position, and the no-position conjunct of the theorem makes
`Tree::apply` return the unchanged tree with `false` — no error. -/
theorem c5_apply_ok_false_unchanged_witness :
    sampleLower.apply sampleNoM true .oci = .ok (sampleLower, false) :=
  (c5_apply_ok_false_unchanged sampleLower sampleNoM true .oci rfl).2.2
    ["q"] "z" rfl rfl

end ImageService
